import Mathlib

/-!
Verification development for the ai-business-server repository.

Strings are modelled as `List Char` (one entry per Unicode scalar value).
JSON numbers are modelled as integers: every JSON literal appearing in the
repository's parsing pipeline and claims is integral, and `JSON.stringify`
prints integers in plain decimal.

The embedded operations are, in order:
  * the tolerant LLM-response recovery pipeline
    (`MarketingAIService.parseJSONResponse`, `AnalyticsAIService.parseJSONResponse`),
  * the Lead engagement engine (`calculateEngagementScore`, `addActivity`),
  * the chatbot conversation-history management (`ChatbotService.processMessage`),
  * the KPI trend classification (`PUT /api/analytics/kpi/:id/update`).
-/

set_option maxRecDepth 10000

namespace AIBiz

/-- Whitespace recognised by JavaScript's `String.prototype.trim` and the
regex class `\s`: space, tab, LF, VT, FF, CR, NBSP, and the Unicode space
separators plus BOM. -/
def isJsWs (c : Char) : Bool :=
  c == ' ' || c == '\t' || c == '\n' || c == '\r' ||
  c.toNat == 11 || c.toNat == 12 || c.toNat == 0xa0 || c.toNat == 0x1680 ||
  (0x2000 ≤ c.toNat && c.toNat ≤ 0x200a) ||
  c.toNat == 0x2028 || c.toNat == 0x2029 || c.toNat == 0x202f ||
  c.toNat == 0x205f || c.toNat == 0x3000 || c.toNat == 0xfeff

/-- `response.trim()`: strip leading and trailing JS whitespace. -/
def jsTrim (l : List Char) : List Char :=
  ((l.dropWhile isJsWs).reverse.dropWhile isJsWs).reverse

/-- Does `pat` occur at the head of `l`? (Literal list match, used to model
regex literals anchored at the scan position.) -/
def startsList : List Char → List Char → Bool
  | [], _ => true
  | _ :: _, [] => false
  | p :: ps, c :: cs => p == c && startsList ps cs

/-- The literal `` ```json `` searched for by the regex `/```json\s*/g`. -/
def fenceJson : List Char := '`' :: '`' :: '`' :: 'j' :: 's' :: 'o' :: 'n' :: []

/-- The literal `` ``` `` searched for by the regex `/```\s*/g`. -/
def fenceTicks : List Char := '`' :: '`' :: '`' :: []

/-- One fuel-indexed scan step family for `replace(/```json\s*/g, '')`.
The fuel only bounds the recursion depth; `replaceFenceJson` supplies more
fuel than the scan can consume, so the zero-fuel branch is unreachable. -/
def replaceFenceJsonF : Nat → List Char → List Char
  | 0, l => l
  | fuel + 1, l =>
    if startsList fenceJson l then
      replaceFenceJsonF fuel ((l.drop 7).dropWhile isJsWs)
    else
      match l with
      | [] => []
      | c :: t => c :: replaceFenceJsonF fuel t

/-- `cleanResponse.replace(/```json\s*/g, '')`: delete every occurrence of
`` ```json `` together with the whitespace that follows it, scanning left to
right and continuing after each deletion. -/
def replaceFenceJson (l : List Char) : List Char :=
  replaceFenceJsonF (l.length + 1) l

/-- Fuel-indexed scan steps for `replace(/```\s*/g, '')`. -/
def replaceFenceTicksF : Nat → List Char → List Char
  | 0, l => l
  | fuel + 1, l =>
    if startsList fenceTicks l then
      replaceFenceTicksF fuel ((l.drop 3).dropWhile isJsWs)
    else
      match l with
      | [] => []
      | c :: t => c :: replaceFenceTicksF fuel t

/-- `cleanResponse.replace(/```\s*/g, '')`: delete every occurrence of
`` ``` `` together with the whitespace that follows it. -/
def replaceFenceTicks (l : List Char) : List Char :=
  replaceFenceTicksF (l.length + 1) l

/-- `cleanResponse.match(/\{[\s\S]*\}/)`: the match, when it exists, spans
from the first `'\x7b'` to the last `'\x7d'` of the text (the quantifier is
greedy and `[\s\S]` matches every character); there is no match unless some
`'\x7d'` occurs strictly after the first `'\x7b'`. -/
def braceSpan (l : List Char) : Option (List Char) :=
  match l.findIdx? (fun c => c == '{') with
  | none => none
  | some i =>
    match l.reverse.findIdx? (fun c => c == '}') with
    | none => none
    | some k =>
      let j := l.length - 1 - k
      if i < j then some ((l.drop i).take (j - i + 1)) else none

/-- Characters deleted by `/[\u0000-\u001F\u007F-\u009F]/g`. -/
def isRemovableCtrl (c : Char) : Bool :=
  c.toNat < 0x20 || (0x7f ≤ c.toNat && c.toNat ≤ 0x9f)

/-- `jsonStr.replace(/[\u0000-\u001F\u007F-\u009F]/g, '')`. -/
def removeCtrl (l : List Char) : List Char :=
  l.filter (fun c => !isRemovableCtrl c)

/-- `s.replace(/a/g, repl)` for a single-character pattern. -/
def replaceChar (a : Char) (repl : List Char) (l : List Char) : List Char :=
  l.flatMap (fun c => if c == a then repl else [c])

/-- The cleanup chain applied to the brace-span candidate in
`MarketingAIService.parseJSONResponse`: remove control characters, then
escape newlines, carriage returns and tabs. -/
def cleanJsonStr (l : List Char) : List Char :=
  replaceChar '\t' ['\\', 't']
    (replaceChar '\r' ['\\', 'r']
      (replaceChar '\n' ['\\', 'n'] (removeCtrl l)))

/-! ## The JSON data model

JSON values as produced by `JSON.parse` and consumed by `JSON.stringify`,
with numbers restricted to integers (see the file header). -/

inductive Json where
  | null : Json
  | bool (b : Bool) : Json
  | num (n : Int) : Json
  | str (s : List Char) : Json
  | arr (items : List Json) : Json
  | obj (members : List (List Char × Json)) : Json
deriving Repr

compile_inductive% Json

/-- Lower-case hexadecimal digit, as emitted by `JSON.stringify` in
`\u00XX` escapes. -/
def hexDigitChar (n : Nat) : Char :=
  match n with
  | 0 => '0' | 1 => '1' | 2 => '2' | 3 => '3' | 4 => '4'
  | 5 => '5' | 6 => '6' | 7 => '7' | 8 => '8' | 9 => '9'
  | 10 => 'a' | 11 => 'b' | 12 => 'c' | 13 => 'd' | 14 => 'e' | _ => 'f'

/-- The decimal digit characters. -/
def digitChar10 (n : Nat) : Char :=
  match n with
  | 0 => '0' | 1 => '1' | 2 => '2' | 3 => '3' | 4 => '4'
  | 5 => '5' | 6 => '6' | 7 => '7' | 8 => '8' | _ => '9'

/-- Fuel-indexed digit production (most significant first); the fuel only
bounds the recursion depth and `natChars` always supplies enough. -/
def natCharsF : Nat → Nat → List Char
  | 0, _ => []
  | fuel + 1, n =>
    if n < 10 then [digitChar10 n]
    else natCharsF fuel (n / 10) ++ [digitChar10 (n % 10)]

/-- Decimal digits of `n`, most significant first, no leading zeros. -/
def natChars (n : Nat) : List Char := natCharsF (n + 1) n

/-- `JSON.stringify` on an integral number. -/
def intChars (n : Int) : List Char :=
  if n < 0 then '-' :: natChars n.natAbs else natChars n.natAbs

/-- `JSON.stringify` escaping of one character inside a string literal:
quote and backslash get a backslash escape, control characters below 0x20
get their short escape or a `\u00XX` escape, everything else (including
DEL and the C1 range) is emitted verbatim. -/
def escChar (c : Char) : List Char :=
  if c == '"' then ['\\', '"']
  else if c == '\\' then ['\\', '\\']
  else if c.toNat == 8 then ['\\', 'b']
  else if c == '\t' then ['\\', 't']
  else if c == '\n' then ['\\', 'n']
  else if c.toNat == 12 then ['\\', 'f']
  else if c == '\r' then ['\\', 'r']
  else if c.toNat < 0x20 then
    ['\\', 'u', '0', '0', hexDigitChar (c.toNat / 16), hexDigitChar (c.toNat % 16)]
  else [c]

/-- `JSON.stringify` of a string: quoted, with each character escaped. -/
def quoteChars (s : List Char) : List Char :=
  '"' :: s.flatMap escChar ++ ['"']

mutual

/-- Fuel-indexed serialization steps; the fuel only bounds the recursion
depth, and the wrappers below always supply enough (`sizeOf` dominates the
number of constructors). -/
def stringifyF : Nat → Json → List Char
  | 0, _ => []
  | _ + 1, .null => 'n' :: 'u' :: 'l' :: 'l' :: []
  | _ + 1, .bool true => 't' :: 'r' :: 'u' :: 'e' :: []
  | _ + 1, .bool false => 'f' :: 'a' :: 'l' :: 's' :: 'e' :: []
  | _ + 1, .num n => intChars n
  | _ + 1, .str s => quoteChars s
  | fuel + 1, .arr items => '[' :: stringifyItemsF fuel items ++ [']']
  | fuel + 1, .obj members => '{' :: stringifyMembersF fuel members ++ ['}']

/-- Fuel-indexed comma-separated serialization of array elements. -/
def stringifyItemsF : Nat → List Json → List Char
  | 0, _ => []
  | _ + 1, [] => []
  | fuel + 1, [v] => stringifyF fuel v
  | fuel + 1, v :: rest => stringifyF fuel v ++ ',' :: stringifyItemsF fuel rest

/-- Fuel-indexed comma-separated serialization of object members. -/
def stringifyMembersF : Nat → List (List Char × Json) → List Char
  | 0, _ => []
  | _ + 1, [] => []
  | fuel + 1, [(k, v)] => quoteChars k ++ ':' :: stringifyF fuel v
  | fuel + 1, (k, v) :: rest =>
    quoteChars k ++ ':' :: stringifyF fuel v ++ ',' :: stringifyMembersF fuel rest

end

/-- `JSON.stringify(v)` (no indent argument, as called nowhere in the
repository): compact serialization with no whitespace between tokens. -/
def stringify (v : Json) : List Char := stringifyF (sizeOf v) v

/-- Comma-separated serialization of array elements. -/
def stringifyItems (items : List Json) : List Char :=
  stringifyItemsF (sizeOf items) items

/-- Comma-separated serialization of object members. -/
def stringifyMembers (members : List (List Char × Json)) : List Char :=
  stringifyMembersF (sizeOf members) members

/-! ## `JSON.parse`

A recursive-descent parser for (integer-numbered) JSON text, modelling the
strict `JSON.parse` builtin called by both `parseJSONResponse` variants:
failure (`none`) models the `SyntaxError` that the surrounding `try` block
catches.  `parseV`/`parseMembers`/`parseItems` take a fuel argument; the
entry point `jsonParse` supplies more fuel than any input can consume. -/

/-- JSON insignificant whitespace (strictly smaller than the JS `\s` class). -/
def isJsonWs (c : Char) : Bool :=
  c == ' ' || c == '\t' || c == '\n' || c == '\r'

/-- Skip insignificant whitespace. -/
def skipWs (l : List Char) : List Char := l.dropWhile isJsonWs

/-- ASCII decimal digit. -/
def isDigitChar (c : Char) : Bool := 48 ≤ c.toNat && c.toNat ≤ 57

/-- Numeric value of a digit string, most significant digit first. -/
def digitsToNat (l : List Char) : Nat :=
  l.foldl (fun a c => 10 * a + (c.toNat - 48)) 0

/-- Value of one hexadecimal digit, upper or lower case. -/
def hexVal (c : Char) : Option Nat :=
  if 48 ≤ c.toNat && c.toNat ≤ 57 then some (c.toNat - 48)
  else if 97 ≤ c.toNat && c.toNat ≤ 102 then some (c.toNat - 87)
  else if 65 ≤ c.toNat && c.toNat ≤ 70 then some (c.toNat - 55)
  else none

/-- Fuel-indexed steps for parsing the body of a JSON string literal; the
fuel only bounds the recursion depth and `parseStrBody` always supplies
enough. -/
def parseStrBodyF : Nat → List Char → Option (List Char × List Char)
  | 0, _ => none
  | fuel + 1, l =>
    match l with
    | [] => none
    | c :: t =>
      if c = '"' then some ([], t)
      else if c = '\\' then
        match t with
        | [] => none
        | e :: t2 =>
          if e = '"' then (parseStrBodyF fuel t2).map (fun p => ('"' :: p.1, p.2))
          else if e = '\\' then (parseStrBodyF fuel t2).map (fun p => ('\\' :: p.1, p.2))
          else if e = '/' then (parseStrBodyF fuel t2).map (fun p => ('/' :: p.1, p.2))
          else if e = 'b' then (parseStrBodyF fuel t2).map (fun p => ('\x08' :: p.1, p.2))
          else if e = 'f' then (parseStrBodyF fuel t2).map (fun p => ('\x0c' :: p.1, p.2))
          else if e = 'n' then (parseStrBodyF fuel t2).map (fun p => ('\n' :: p.1, p.2))
          else if e = 'r' then (parseStrBodyF fuel t2).map (fun p => ('\r' :: p.1, p.2))
          else if e = 't' then (parseStrBodyF fuel t2).map (fun p => ('\t' :: p.1, p.2))
          else if e = 'u' then
            match t2 with
            | h1 :: h2 :: h3 :: h4 :: t6 =>
              match hexVal h1, hexVal h2, hexVal h3, hexVal h4 with
              | some a, some b, some c2, some d =>
                (parseStrBodyF fuel t6).map
                  (fun p => (Char.ofNat (((a * 16 + b) * 16 + c2) * 16 + d) :: p.1, p.2))
              | _, _, _, _ => none
            | _ => none
          else none
      else if c.toNat < 0x20 then none
      else (parseStrBodyF fuel t).map (fun p => (c :: p.1, p.2))

/-- Parse the body of a JSON string literal (opening quote already
consumed), returning the decoded characters and the text after the closing
quote.  Backslash escapes are decoded; a raw control character below 0x20
is a syntax error, exactly as in `JSON.parse`. -/
def parseStrBody (l : List Char) : Option (List Char × List Char) :=
  parseStrBodyF (l.length + 1) l

/-- Parse an unsigned digit run (no redundant leading zero), returning its
value and the unconsumed rest. -/
def parseNatNum (l : List Char) : Option (Nat × List Char) :=
  let ds := l.takeWhile isDigitChar
  let rest := l.dropWhile isDigitChar
  if ds.isEmpty then none
  else if 1 < ds.length && ds.head? == some '0' then none
  else some (digitsToNat ds, rest)

/-- Parse a JSON number (integral form: optional minus sign then a digit
run; see the file header for the integer modelling). -/
def parseNum (l : List Char) : Option (Json × List Char) :=
  match l with
  | [] => none
  | c :: t =>
    if c = '-' then
      (parseNatNum t).map (fun p => (Json.num (-(p.1 : Int)), p.2))
    else (parseNatNum (c :: t)).map (fun p => (Json.num ((p.1 : Nat) : Int), p.2))

/-- The literal `ull` (tail of `null`). -/
def litNull : List Char := 'u' :: 'l' :: 'l' :: []

/-- The literal `rue` (tail of `true`). -/
def litTrue : List Char := 'r' :: 'u' :: 'e' :: []

/-- The literal `alse` (tail of `false`). -/
def litFalse : List Char := 'a' :: 'l' :: 's' :: 'e' :: []

mutual

/-- Parse one JSON value, returning it and the unconsumed rest. -/
def parseV : Nat → List Char → Option (Json × List Char)
  | 0, _ => none
  | fuel + 1, l =>
    match skipWs l with
    | [] => none
    | c :: t =>
      if c = '{' then
        match skipWs t with
        | [] => none
        | d :: t2 =>
          if d = '}' then some (.obj [], t2)
          else (parseMembers fuel (d :: t2)).map (fun p => (.obj p.1, p.2))
      else if c = '[' then
        match skipWs t with
        | [] => none
        | d :: t2 =>
          if d = ']' then some (.arr [], t2)
          else (parseItems fuel (d :: t2)).map (fun p => (.arr p.1, p.2))
      else if c = '"' then (parseStrBody t).map (fun p => (.str p.1, p.2))
      else if c = 'n' then
        if startsList litNull t then some (.null, t.drop 3) else none
      else if c = 't' then
        if startsList litTrue t then some (.bool true, t.drop 3) else none
      else if c = 'f' then
        if startsList litFalse t then some (.bool false, t.drop 4) else none
      else parseNum (c :: t)

/-- Parse a non-empty `"key": value` list followed by the closing brace. -/
def parseMembers : Nat → List Char → Option (List (List Char × Json) × List Char)
  | 0, _ => none
  | fuel + 1, l =>
    match l with
    | [] => none
    | c :: t =>
      if c = '"' then
        match parseStrBody t with
        | none => none
        | some (k, r1) =>
          match skipWs r1 with
          | [] => none
          | c2 :: r2 =>
            if c2 = ':' then
              match parseV fuel r2 with
              | none => none
              | some (v, r3) =>
                match skipWs r3 with
                | [] => none
                | c3 :: r4 =>
                  if c3 = ',' then
                    (parseMembers fuel (skipWs r4)).map (fun p => ((k, v) :: p.1, p.2))
                  else if c3 = '}' then some ([(k, v)], r4)
                  else none
            else none
      else none

/-- Parse a non-empty value list followed by the closing bracket. -/
def parseItems : Nat → List Char → Option (List Json × List Char)
  | 0, _ => none
  | fuel + 1, l =>
    match parseV fuel l with
    | none => none
    | some (v, r1) =>
      match skipWs r1 with
      | [] => none
      | c2 :: r2 =>
        if c2 = ',' then (parseItems fuel r2).map (fun p => (v :: p.1, p.2))
        else if c2 = ']' then some ([v], r2)
        else none

end

/-- `JSON.parse(text)`: parse one value and require that only whitespace
follows it; `none` models the thrown `SyntaxError`. -/
def jsonParse (l : List Char) : Option Json :=
  match parseV (l.length + 1) l with
  | none => none
  | some (v, rest) => if (skipWs rest).isEmpty then some v else none

/-! ## The recovery layer

`RecoveryResult` is the spec's tagged outcome type: the source returns the
parsed object directly on success and a synthetic default object on any
failure, and never lets an exception escape (`Parsed` tags the `return
JSON.parse(...)` path, `Fallback` tags both `return` fallback paths,
carrying the constructed default and the original raw text). -/

inductive RecoveryResult where
  | parsed (value : Json) : RecoveryResult
  | fallback (defaultValue : Json) (rawText : List Char) : RecoveryResult
deriving Repr

/-- The fallback object built (twice, identically) in
`MarketingAIService.parseJSONResponse` from the raw response. -/
def marketingFallback (response : List Char) : Json :=
  .obj
    [ (String.toList "subject", .str (String.toList "AI-Generated Campaign"))
    , (String.toList "html",
        .str (String.toList "<h1>AI-Generated Content</h1><p>" ++ response ++
              String.toList "</p>"))
    , (String.toList "text", .str response)
    , (String.toList "cta",
        .arr [ .str (String.toList "Learn More")
             , .str (String.toList "Get Started")
             , .str (String.toList "Contact Us") ]) ]

/-- `MarketingAIService.parseJSONResponse(response)`: trim, strip the two
fence regexes, take the outer brace span, clean it up, and `JSON.parse` it;
every failure path returns the fallback object. -/
def parseJSONResponseMarketing (response : List Char) : RecoveryResult :=
  let cleanResponse :=
    replaceFenceTicks (replaceFenceJson (jsTrim response))
  match braceSpan cleanResponse with
  | some jsonMatch =>
    match jsonParse (cleanJsonStr jsonMatch) with
    | some v => .parsed v
    | none => .fallback (marketingFallback response) response
  | none => .fallback (marketingFallback response) response

/-- The fallback object of the no-brace-span branch of
`AnalyticsAIService.parseJSONResponse`. -/
def analyticsFallbackNoMatch (response : List Char) : Json :=
  .obj
    [ (String.toList "error", .str (String.toList "Could not parse AI response"))
    , (String.toList "rawResponse", .str response) ]

/-- The fallback object of the catch branch of
`AnalyticsAIService.parseJSONResponse`. -/
def analyticsFallbackInvalid (response : List Char) : Json :=
  .obj
    [ (String.toList "error", .str (String.toList "Invalid JSON response"))
    , (String.toList "rawResponse", .str response) ]

/-- `AnalyticsAIService.parseJSONResponse(response)`: same pipeline without
the cleanup pass, with two distinct fallback objects. -/
def parseJSONResponseAnalytics (response : List Char) : RecoveryResult :=
  let cleanResponse :=
    replaceFenceTicks (replaceFenceJson (jsTrim response))
  match braceSpan cleanResponse with
  | some jsonMatch =>
    match jsonParse jsonMatch with
    | some v => .parsed v
    | none => .fallback (analyticsFallbackInvalid response) response
  | none => .fallback (analyticsFallbackNoMatch response) response

/-! ## The Lead engagement engine (`src/models/Lead.js`)

Timestamps are rationals measured in milliseconds (the unit of
`Date.now()` and of date subtraction in JS); score arithmetic is exact
rational arithmetic.  String-valued profile fields are `List Char`, with
JS truthiness `s ≠ ""` (an absent field is the empty list). -/

inductive ActivityType where
  | email_sent | email_opened | link_clicked | form_submitted | page_visited
  | purchase | call | meeting | note_added
deriving DecidableEq, Repr

inductive LeadStatus where
  | new | contacted | qualified | proposal | negotiation | closed_won | closed_lost
deriving DecidableEq, Repr

inductive LifecycleStage where
  | subscriber | lead | marketing_qualified | sales_qualified | opportunity
  | customer | evangelist
deriving DecidableEq, Repr

structure Activity where
  type : ActivityType
  description : List Char
  metadata : List (List Char × List Char)
  timestamp : ℚ
deriving DecidableEq, Repr

/-- The `engagement` sub-document of a Lead. -/
structure Engagement where
  totalEmails : ℕ
  emailsOpened : ℕ
  linksClicked : ℕ
  lastEmailOpened : Option ℚ
  lastLinkClicked : Option ℚ
  engagementScore : ℚ
deriving DecidableEq, Repr

/-- The `lifecycle` sub-document of a Lead. -/
structure Lifecycle where
  stage : LifecycleStage
  firstContact : Option ℚ
  lastContact : Option ℚ
  lastActivity : Option ℚ
deriving DecidableEq, Repr

/-- The `preferences` sub-document of a Lead. -/
structure Preferences where
  emailFrequency : List Char
  topics : List (List Char)
  unsubscribed : Bool
deriving DecidableEq, Repr

/-- The `value` sub-document of a Lead. -/
structure LeadValue where
  estimatedValue : ℚ
  actualValue : ℚ
  currency : List Char
deriving DecidableEq, Repr

structure Note where
  content : List Char
  createdAt : ℚ
deriving DecidableEq, Repr

/-- A Lead document (the fields read or written by the embedded methods,
plus the fields the frame claim names). -/
structure Lead where
  email : List Char
  firstName : List Char
  lastName : List Char
  phone : List Char
  company : List Char
  jobTitle : List Char
  status : LeadStatus
  source : List Char
  tags : List (List Char)
  engagement : Engagement
  lifecycle : Lifecycle
  preferences : Preferences
  value : LeadValue
  notes : List Note
  activities : List Activity
deriving DecidableEq, Repr

/-- JS truthiness of a string field. -/
def truthy (s : List Char) : Bool := !s.isEmpty

/-- Milliseconds per day, the divisor `1000 * 60 * 60 * 24`. -/
def msPerDay : ℚ := 1000 * 60 * 60 * 24

/-- The email-engagement summand (`40%` weight): `(emailsOpened /
totalEmails) * 40` guarded by `totalEmails > 0`. -/
def emailEngagement (e : Engagement) : ℚ :=
  if 0 < e.totalEmails then ((e.emailsOpened : ℚ) / (e.totalEmails : ℚ)) * 40 else 0

/-- The click-engagement summand (`30%` weight): `(linksClicked /
emailsOpened) * 30` guarded by `emailsOpened > 0`. -/
def clickEngagement (e : Engagement) : ℚ :=
  if 0 < e.emailsOpened then ((e.linksClicked : ℚ) / (e.emailsOpened : ℚ)) * 30 else 0

/-- The recency summand (`20%` weight): `max(0, 20 - daysSinceLastOpen/7)`
with `daysSinceLastOpen = (Date.now() - lastEmailOpened) / (1000*60*60*24)`,
and `0` when `lastEmailOpened` is unset. -/
def recencyScore (now : ℚ) (e : Engagement) : ℚ :=
  match e.lastEmailOpened with
  | some t => max 0 (20 - ((now - t) / msPerDay) / 7)
  | none => 0

/-- The profile-completeness summand (`10%` weight): 2 points per truthy
profile field. -/
def profileCompleteness (lead : Lead) : ℚ :=
  (if truthy lead.firstName then 2 else 0) +
  (if truthy lead.lastName then 2 else 0) +
  (if truthy lead.phone then 2 else 0) +
  (if truthy lead.company then 2 else 0) +
  (if truthy lead.jobTitle then 2 else 0)

/-- `calculateEngagementScore` as a value: the number stored and returned
by `leadSchema.methods.calculateEngagementScore`, as a function of the
lead's state and of the call time `now` (the method reads `Date.now()` for
the recency component), clamped by `Math.min(100, Math.max(0, score))`. -/
def calculateEngagementScore (now : ℚ) (lead : Lead) : ℚ :=
  min 100 (max 0 (emailEngagement lead.engagement + clickEngagement lead.engagement +
    recencyScore now lead.engagement + profileCompleteness lead))

/-- The mutation performed by `calculateEngagementScore`: store the clamped
score into `engagement.engagementScore`. -/
def storeEngagementScore (now : ℚ) (lead : Lead) : Lead :=
  { lead with
      engagement := { lead.engagement with
                        engagementScore := calculateEngagementScore now lead } }

/-- `leadSchema.methods.addActivity(type, description, metadata)` at call
time `now`: push the activity, set `lifecycle.lastActivity`, bump the
engagement counters according to the activity type, then recalculate the
engagement score. -/
def addActivity (now : ℚ) (type : ActivityType) (description : List Char)
    (metadata : List (List Char × List Char)) (lead : Lead) : Lead :=
  let lead1 :=
    { lead with
        activities := lead.activities ++
          [({ type := type, description := description,
              metadata := metadata, timestamp := now } : Activity)] }
  let lead2 :=
    { lead1 with lifecycle := { lead1.lifecycle with lastActivity := some now } }
  let lead3 :=
    if type = .email_sent then
      { lead2 with engagement :=
          { lead2.engagement with totalEmails := lead2.engagement.totalEmails + 1 } }
    else if type = .email_opened then
      { lead2 with engagement :=
          { lead2.engagement with
              emailsOpened := lead2.engagement.emailsOpened + 1,
              lastEmailOpened := some now } }
    else if type = .link_clicked then
      { lead2 with engagement :=
          { lead2.engagement with
              linksClicked := lead2.engagement.linksClicked + 1,
              lastLinkClicked := some now } }
    else lead2
  storeEngagementScore now lead3

/-! ## Chatbot conversation history (`ChatbotService.processMessage`)

One successfully completed `processMessage` call on an existing session
appends the user message and the model's reply, then trims the history.
Session creation seeds the history with the system prompt. -/

inductive Role where
  | system | user | assistant
deriving DecidableEq, Repr

structure ChatMsg where
  role : Role
  content : List Char
deriving DecidableEq, Repr

/-- The history stored for a fresh session. -/
def chatInit (sysPrompt : List Char) : List ChatMsg :=
  [{ role := .system, content := sysPrompt }]

/-- The history update of one completed `processMessage` call: push the
user message, push the assistant reply, and if the length now exceeds 20,
`splice(1, 2)` — drop the oldest user/assistant pair while keeping the
system prompt at index 0. -/
def processMessageHistory (history : List ChatMsg)
    (message botResponse : List Char) : List ChatMsg :=
  let h2 := (history ++ [{ role := .user, content := message }]) ++
            [{ role := .assistant, content := botResponse }]
  if 20 < h2.length then h2.take 1 ++ h2.drop 3 else h2

/-- Histories reachable for one session: seeded by `chatInit`, then mutated
only by completed `processMessage` calls. -/
inductive ChatReachable : List ChatMsg → Prop where
  | init (sysPrompt : List Char) : ChatReachable (chatInit sysPrompt)
  | step (h : List ChatMsg) (m b : List Char) :
      ChatReachable h → ChatReachable (processMessageHistory h m b)

/-- The history update of a `processMessage` call that throws after the
user push: `history.push({ role: 'user', ... })` precedes the `await
model.generateContent(...)`, and when that call (or reading its response)
throws, the catch block returns normally — the pushed user message stays
in the stored history with no assistant push and no `splice(1, 2)` trim. -/
def processMessageCatch (history : List ChatMsg) (message : List Char) :
    List ChatMsg :=
  history ++ [{ role := .user, content := message }]

/-- Histories reachable for one session through arbitrary `processMessage`
calls: seeded by `chatInit`, then mutated either by a completed call or by
a call whose API request throws after the user push (the catch block
swallows the error and returns normally, so such calls occur in ordinary
operation). -/
inductive ChatReachableAny : List ChatMsg → Prop where
  | init (sysPrompt : List Char) : ChatReachableAny (chatInit sysPrompt)
  | ok (h : List ChatMsg) (m b : List Char) :
      ChatReachableAny h → ChatReachableAny (processMessageHistory h m b)
  | err (h : List ChatMsg) (m : List Char) :
      ChatReachableAny h → ChatReachableAny (processMessageCatch h m)

/-- The stored history after `n` consecutive catch-path calls (with empty
user messages) on a fresh session with an empty system prompt. -/
def catchCalls : Nat → List ChatMsg
  | 0 => chatInit []
  | n + 1 => processMessageCatch (catchCalls n) []

/-! ## KPI trend classification (`PUT /api/analytics/kpi/:id/update`) -/

inductive Trend where
  | increasing | decreasing | stable
deriving DecidableEq, Repr

structure KPIEntry where
  date : ℚ
  value : ℚ
  note : List Char
deriving DecidableEq, Repr

structure KPI where
  trend : Trend
  history : List KPIEntry
deriving DecidableEq, Repr

/-- A KPI as created by `POST /api/analytics/kpi/create`: empty history,
schema-default trend `'stable'`. -/
def kpiNew : KPI := { trend := .stable, history := [] }

/-- The update handler at call time `now` with body `value`/`note`: push a
history entry, and when the history now has at least two entries recompute
the trend by comparing the endpoints of `history.slice(-3)`. -/
def updateKPI (now value : ℚ) (note : List Char) (kpi : KPI) : KPI :=
  let history := kpi.history ++ [{ date := now, value := value, note := note }]
  let trend :=
    if 2 ≤ history.length then
      let recent := history.drop (history.length - 3)
      match recent.getLast?, recent.head? with
      | some lastE, some firstE =>
        if firstE.value < lastE.value then Trend.increasing
        else if lastE.value < firstE.value then Trend.decreasing
        else Trend.stable
      | _, _ => kpi.trend
    else kpi.trend
  { trend := trend, history := history }

/-- The endpoint-comparison classifier the handler implements, as a pure
function of the value history: over the window of the last 3 entries (or
fewer), `increasing` when the latest value exceeds the earliest of the
window, `decreasing` when it is below it, `stable` otherwise — and
`stable` when fewer than two values exist (the handler then never leaves
the schema default). -/
def classifyTrend (history : List KPIEntry) : Trend :=
  if 2 ≤ history.length then
    let recent := history.drop (history.length - 3)
    match recent.getLast?, recent.head? with
    | some lastE, some firstE =>
      if firstE.value < lastE.value then Trend.increasing
      else if lastE.value < firstE.value then Trend.decreasing
      else Trend.stable
    | _, _ => Trend.stable
  else Trend.stable

/-- KPI states reachable from creation through value updates. -/
inductive KPIReachable : KPI → Prop where
  | init : KPIReachable kpiNew
  | step (kpi : KPI) (now value : ℚ) (note : List Char) :
      KPIReachable kpi → KPIReachable (updateKPI now value note kpi)

/-! ## Shared concrete states and helper lemmas -/

/-- The spec's `fenced(s)`: wrap `s` in a markdown JSON code fence. -/
def fencedWrap (s : List Char) : List Char :=
  fenceJson ++ '\n' :: s ++ '\n' :: fenceTicks

/-- A canonical serialization of a `RecoveryResult`, used to separate
concrete results without a decidable equality on the nested `Json` type. -/
def resultRepr : RecoveryResult → List Char
  | .parsed v => 'P' :: stringify v
  | .fallback d r => 'F' :: stringify d ++ '|' :: r

/-- An all-empty Lead: every string field empty, all counters zero. -/
def baseLead : Lead :=
  { email := [], firstName := [], lastName := [], phone := [], company := [],
    jobTitle := [], status := .new, source := [], tags := [],
    engagement :=
      { totalEmails := 0, emailsOpened := 0, linksClicked := 0,
        lastEmailOpened := none, lastLinkClicked := none, engagementScore := 0 },
    lifecycle :=
      { stage := .subscriber, firstContact := none, lastContact := none,
        lastActivity := none },
    preferences := { emailFrequency := [], topics := [], unsubscribed := false },
    value := { estimatedValue := 0, actualValue := 0, currency := [] },
    notes := [], activities := [] }

/-- A lead with 1000 emails sent, one link clicked, and `k` emails opened. -/
def leadOpened (k : ℕ) : Lead :=
  { baseLead with
      engagement :=
        { totalEmails := 1000, emailsOpened := k, linksClicked := 1,
          lastEmailOpened := none, lastLinkClicked := none, engagementScore := 0 } }

/-- A lead whose last email open happened at time 0. -/
def leadRecency : Lead :=
  { baseLead with
      engagement :=
        { totalEmails := 0, emailsOpened := 0, linksClicked := 0,
          lastEmailOpened := some 0, lastLinkClicked := none, engagementScore := 0 } }

/-- Does `l` contain three consecutive backticks (the marker both fence
regexes react to)? -/
def hasFence : List Char → Bool
  | a :: b :: c :: t => (a == '`' && b == '`' && c == '`') || hasFence (b :: c :: t)
  | _ => false

/-- Is `l` free of characters in the `\u007F`–`\u009F` range (the part of
the cleanup character class that `JSON.stringify` does not escape)? -/
def noC1Range (l : List Char) : Bool :=
  l.all (fun c => !(0x7f ≤ c.toNat && c.toNat ≤ 0x9f))

/-- Does `rest` start with something other than a digit (so that a number
immediately before it parses greedily but correctly)? -/
def numDelim : List Char → Bool
  | [] => true
  | c :: _ => !isDigitChar c

theorem mem_of_mem_dropWhile {p : Char → Bool} {c : Char} :
    ∀ {l : List Char}, c ∈ l.dropWhile p → c ∈ l := by
  intro l h
  induction l with
  | nil => simpa using h
  | cons d t ih =>
    by_cases hd : p d
    · simp only [List.dropWhile, hd] at h
      exact List.mem_cons_of_mem d (ih h)
    · simpa [List.dropWhile, hd] using h

theorem mem_of_mem_jsTrim {c : Char} {l : List Char} (h : c ∈ jsTrim l) : c ∈ l := by
  unfold jsTrim at h
  rw [List.mem_reverse] at h
  have h1 := mem_of_mem_dropWhile h
  rw [List.mem_reverse] at h1
  exact mem_of_mem_dropWhile h1

theorem mem_of_mem_replaceFenceJsonF {c : Char} :
    ∀ (fuel : Nat) (l : List Char), c ∈ replaceFenceJsonF fuel l → c ∈ l := by
  intro fuel
  induction fuel with
  | zero => intro l h; simpa [replaceFenceJsonF] using h
  | succ fuel ih =>
    intro l h
    simp only [replaceFenceJsonF] at h
    by_cases hs : startsList fenceJson l
    · rw [if_pos hs] at h
      exact List.mem_of_mem_drop (mem_of_mem_dropWhile (ih _ h))
    · rw [if_neg hs] at h
      cases l with
      | nil => simpa using h
      | cons d t =>
        rcases List.mem_cons.mp h with rfl | h2
        · exact List.mem_cons_self _ _
        · exact List.mem_cons_of_mem d (ih _ h2)

theorem mem_of_mem_replaceFenceTicksF {c : Char} :
    ∀ (fuel : Nat) (l : List Char), c ∈ replaceFenceTicksF fuel l → c ∈ l := by
  intro fuel
  induction fuel with
  | zero => intro l h; simpa [replaceFenceTicksF] using h
  | succ fuel ih =>
    intro l h
    simp only [replaceFenceTicksF] at h
    by_cases hs : startsList fenceTicks l
    · rw [if_pos hs] at h
      exact List.mem_of_mem_drop (mem_of_mem_dropWhile (ih _ h))
    · rw [if_neg hs] at h
      cases l with
      | nil => simpa using h
      | cons d t =>
        rcases List.mem_cons.mp h with rfl | h2
        · exact List.mem_cons_self _ _
        · exact List.mem_cons_of_mem d (ih _ h2)

/-- The whole cleanup front of the pipeline only ever deletes characters. -/
theorem mem_of_mem_cleanFront {c : Char} {l : List Char}
    (h : c ∈ replaceFenceTicks (replaceFenceJson (jsTrim l))) : c ∈ l :=
  mem_of_mem_jsTrim
    (mem_of_mem_replaceFenceJsonF _ _ (mem_of_mem_replaceFenceTicksF _ _ h))

theorem braceSpan_eq_none {l : List Char} (h : '{' ∉ l) : braceSpan l = none := by
  have hn : l.findIdx? (fun d => d == '{') = none := by
    rw [List.findIdx?_eq_none_iff]
    intro x hx
    exact beq_eq_false_iff_ne.mpr fun e => h (e ▸ hx)
  unfold braceSpan
  rw [hn]

/-! ## Serialization equations

`stringify` and its item/member loops are fuel-indexed with `sizeOf` fuel;
the lemmas here recover the natural recursion equations. -/

theorem json_sizeOf_pos (v : Json) : 1 ≤ sizeOf v := by
  cases v <;> simp_arith

theorem list_json_sizeOf_pos (l : List Json) : 1 ≤ sizeOf l := by
  cases l <;> simp_arith

theorem list_members_sizeOf_pos (l : List (List Char × Json)) : 1 ≤ sizeOf l := by
  cases l <;> simp_arith

theorem stringifyF_irrel : ∀ fuel₁ fuel₂ : Nat,
    (∀ v : Json, sizeOf v ≤ fuel₁ → sizeOf v ≤ fuel₂ →
      stringifyF fuel₁ v = stringifyF fuel₂ v) ∧
    (∀ items : List Json, sizeOf items ≤ fuel₁ → sizeOf items ≤ fuel₂ →
      stringifyItemsF fuel₁ items = stringifyItemsF fuel₂ items) ∧
    (∀ members : List (List Char × Json),
      sizeOf members ≤ fuel₁ → sizeOf members ≤ fuel₂ →
      stringifyMembersF fuel₁ members = stringifyMembersF fuel₂ members) := by
  intro fuel₁
  induction fuel₁ with
  | zero =>
    intro fuel₂
    refine ⟨fun v h _ => ?_, fun items h _ => ?_, fun members h _ => ?_⟩
    · exact absurd h (by have := json_sizeOf_pos v; omega)
    · exact absurd h (by have := list_json_sizeOf_pos items; omega)
    · exact absurd h (by have := list_members_sizeOf_pos members; omega)
  | succ fuel₁ ih =>
    intro fuel₂
    cases fuel₂ with
    | zero =>
      refine ⟨fun v _ h => ?_, fun items _ h => ?_, fun members _ h => ?_⟩
      · exact absurd h (by have := json_sizeOf_pos v; omega)
      · exact absurd h (by have := list_json_sizeOf_pos items; omega)
      · exact absurd h (by have := list_members_sizeOf_pos members; omega)
    | succ fuel₂ =>
      refine ⟨fun v h1 h2 => ?_, fun items h1 h2 => ?_, fun members h1 h2 => ?_⟩
      · cases v with
        | null => rfl
        | bool b => cases b <;> rfl
        | num n => rfl
        | str s => rfl
        | arr items =>
          simp only [Json.arr.sizeOf_spec] at h1 h2
          show '[' :: stringifyItemsF fuel₁ items ++ [']'] =
            '[' :: stringifyItemsF fuel₂ items ++ [']']
          rw [(ih fuel₂).2.1 items (by omega) (by omega)]
        | obj members =>
          simp only [Json.obj.sizeOf_spec] at h1 h2
          show '{' :: stringifyMembersF fuel₁ members ++ ['}'] =
            '{' :: stringifyMembersF fuel₂ members ++ ['}']
          rw [(ih fuel₂).2.2 members (by omega) (by omega)]
      · cases items with
        | nil => rfl
        | cons v rest =>
          cases rest with
          | nil =>
            simp only [List.cons.sizeOf_spec, List.nil.sizeOf_spec] at h1 h2
            show stringifyF fuel₁ v = stringifyF fuel₂ v
            exact (ih fuel₂).1 v (by omega) (by omega)
          | cons w rest' =>
            simp only [List.cons.sizeOf_spec] at h1 h2
            show stringifyF fuel₁ v ++ ',' :: stringifyItemsF fuel₁ (w :: rest') =
              stringifyF fuel₂ v ++ ',' :: stringifyItemsF fuel₂ (w :: rest')
            rw [(ih fuel₂).1 v (by omega) (by omega),
              (ih fuel₂).2.1 (w :: rest')
                (by simp only [List.cons.sizeOf_spec]; omega)
                (by simp only [List.cons.sizeOf_spec]; omega)]
      · cases members with
        | nil => rfl
        | cons kv rest =>
          obtain ⟨k, v⟩ := kv
          cases rest with
          | nil =>
            simp only [List.cons.sizeOf_spec, List.nil.sizeOf_spec,
              Prod.mk.sizeOf_spec] at h1 h2
            show quoteChars k ++ ':' :: stringifyF fuel₁ v =
              quoteChars k ++ ':' :: stringifyF fuel₂ v
            rw [(ih fuel₂).1 v (by omega) (by omega)]
          | cons kv2 rest' =>
            simp only [List.cons.sizeOf_spec, Prod.mk.sizeOf_spec] at h1 h2
            show quoteChars k ++ ':' :: stringifyF fuel₁ v ++
                ',' :: stringifyMembersF fuel₁ (kv2 :: rest') =
              quoteChars k ++ ':' :: stringifyF fuel₂ v ++
                ',' :: stringifyMembersF fuel₂ (kv2 :: rest')
            rw [(ih fuel₂).1 v (by omega) (by omega),
              (ih fuel₂).2.2 (kv2 :: rest')
                (by simp only [List.cons.sizeOf_spec, Prod.mk.sizeOf_spec]; omega)
                (by simp only [List.cons.sizeOf_spec, Prod.mk.sizeOf_spec]; omega)]

theorem stringify_null : stringify .null = 'n' :: 'u' :: 'l' :: 'l' :: [] := rfl

theorem stringify_bool (b : Bool) :
    stringify (.bool b) =
      if b then 't' :: 'r' :: 'u' :: 'e' :: []
      else 'f' :: 'a' :: 'l' :: 's' :: 'e' :: [] := by
  cases b <;> rfl

theorem stringify_num (n : Int) : stringify (.num n) = intChars n := by
  unfold stringify
  rw [Json.num.sizeOf_spec, Nat.add_comm]
  rfl

theorem stringify_str (s : List Char) : stringify (.str s) = quoteChars s := by
  unfold stringify
  rw [Json.str.sizeOf_spec, Nat.add_comm]
  rfl

theorem stringify_arr (items : List Json) :
    stringify (.arr items) = '[' :: stringifyItems items ++ [']'] := by
  unfold stringify stringifyItems
  rw [Json.arr.sizeOf_spec, Nat.add_comm]
  rfl

theorem stringify_obj (members : List (List Char × Json)) :
    stringify (.obj members) = '{' :: stringifyMembers members ++ ['}'] := by
  unfold stringify stringifyMembers
  rw [Json.obj.sizeOf_spec, Nat.add_comm]
  rfl

theorem stringifyItems_nil : stringifyItems [] = [] := rfl

theorem stringifyItems_single (v : Json) : stringifyItems [v] = stringify v := by
  unfold stringifyItems stringify
  have h : sizeOf [v] = sizeOf v + 1 + 1 := by
    simp only [List.cons.sizeOf_spec, List.nil.sizeOf_spec]; omega
  rw [h]
  exact (stringifyF_irrel (sizeOf v + 1) (sizeOf v)).1 v (by omega) (le_refl _)

theorem stringifyItems_cons (v w : Json) (rest : List Json) :
    stringifyItems (v :: w :: rest) =
      stringify v ++ ',' :: stringifyItems (w :: rest) := by
  unfold stringifyItems stringify
  have h : sizeOf (v :: w :: rest) = (sizeOf v + sizeOf (w :: rest)) + 1 := by
    simp only [List.cons.sizeOf_spec]; omega
  rw [h]
  show stringifyF (sizeOf v + sizeOf (w :: rest)) v ++
      ',' :: stringifyItemsF (sizeOf v + sizeOf (w :: rest)) (w :: rest) = _
  rw [(stringifyF_irrel (sizeOf v + sizeOf (w :: rest)) (sizeOf v)).1 v
      (by omega) (le_refl _),
    (stringifyF_irrel (sizeOf v + sizeOf (w :: rest)) (sizeOf (w :: rest))).2.1
      (w :: rest) (by omega) (le_refl _)]

theorem stringifyMembers_nil : stringifyMembers [] = [] := rfl

theorem stringifyMembers_single (k : List Char) (v : Json) :
    stringifyMembers [(k, v)] = quoteChars k ++ ':' :: stringify v := by
  unfold stringifyMembers stringify
  have h : sizeOf [(k, v)] = (sizeOf k + sizeOf v + 2) + 1 := by
    simp only [List.cons.sizeOf_spec, List.nil.sizeOf_spec, Prod.mk.sizeOf_spec]
    omega
  rw [h]
  show quoteChars k ++ ':' :: stringifyF (sizeOf k + sizeOf v + 2) v = _
  rw [(stringifyF_irrel (sizeOf k + sizeOf v + 2) (sizeOf v)).1 v (by omega)
    (le_refl _)]

theorem stringifyMembers_cons (k : List Char) (v : Json)
    (kv2 : List Char × Json) (rest : List (List Char × Json)) :
    stringifyMembers ((k, v) :: kv2 :: rest) =
      quoteChars k ++ ':' :: stringify v ++
        ',' :: stringifyMembers (kv2 :: rest) := by
  unfold stringifyMembers stringify
  have h : sizeOf ((k, v) :: kv2 :: rest) =
      (sizeOf k + sizeOf v + sizeOf (kv2 :: rest) + 1) + 1 := by
    simp only [List.cons.sizeOf_spec, Prod.mk.sizeOf_spec]; omega
  rw [h]
  show quoteChars k ++
      ':' :: stringifyF (sizeOf k + sizeOf v + sizeOf (kv2 :: rest) + 1) v ++
      ',' :: stringifyMembersF (sizeOf k + sizeOf v + sizeOf (kv2 :: rest) + 1)
        (kv2 :: rest) = _
  rw [(stringifyF_irrel (sizeOf k + sizeOf v + sizeOf (kv2 :: rest) + 1)
      (sizeOf v)).1 v (by omega) (le_refl _),
    (stringifyF_irrel (sizeOf k + sizeOf v + sizeOf (kv2 :: rest) + 1)
      (sizeOf (kv2 :: rest))).2.2 (kv2 :: rest) (by omega) (le_refl _)]

/-! ## Character-level facts about the serialization -/

theorem char_eq_of_toNat_eq {c d : Char} (h : c.toNat = d.toNat) : c = d := by
  have h2 := congrArg Char.ofNat h
  rwa [Char.ofNat_toNat, Char.ofNat_toNat] at h2

theorem char_ne_of_toNat_ne {c d : Char} (h : c.toNat ≠ d.toNat) : c ≠ d :=
  fun e => h (congrArg Char.toNat e)

theorem digitChar10_toNat {n : Nat} (h : n < 10) : (digitChar10 n).toNat = 48 + n := by
  interval_cases n <;> rfl

theorem digitChar10_bounds (n : Nat) :
    48 ≤ (digitChar10 n).toNat ∧ (digitChar10 n).toNat ≤ 57 := by
  unfold digitChar10
  split <;> decide

theorem hexDigitChar_hexVal {n : Nat} (h : n < 16) :
    hexVal (hexDigitChar n) = some n := by
  interval_cases n <;> rfl

theorem hexDigitChar_ge32 (n : Nat) : 32 ≤ (hexDigitChar n).toNat := by
  unfold hexDigitChar
  split <;> decide

theorem natCharsF_ne_nil : ∀ (fuel n : Nat), n < fuel → natCharsF fuel n ≠ [] := by
  intro fuel
  induction fuel with
  | zero => intro n h; omega
  | succ fuel ih =>
    intro n _
    simp only [natCharsF]
    by_cases h10 : n < 10
    · rw [if_pos h10]; simp
    · rw [if_neg h10]; simp

theorem natCharsF_all_digits :
    ∀ (fuel n : Nat) (c : Char), c ∈ natCharsF fuel n → isDigitChar c = true := by
  intro fuel
  induction fuel with
  | zero => intro n c h; simp [natCharsF] at h
  | succ fuel ih =>
    intro n c h
    simp only [natCharsF] at h
    by_cases h10 : n < 10
    · rw [if_pos h10] at h
      simp only [List.mem_singleton] at h
      subst h
      have := digitChar10_bounds n
      simp only [isDigitChar, Bool.and_eq_true, decide_eq_true_eq]
      omega
    · rw [if_neg h10] at h
      rcases List.mem_append.mp h with h1 | h1
      · exact ih _ c h1
      · simp only [List.mem_singleton] at h1
        subst h1
        have := digitChar10_bounds (n % 10)
        simp only [isDigitChar, Bool.and_eq_true, decide_eq_true_eq]
        omega

theorem natCharsF_head : ∀ (fuel n : Nat), n < fuel →
    ∃ d t, d < 10 ∧ natCharsF fuel n = digitChar10 d :: t ∧ (1 ≤ n → 1 ≤ d) := by
  intro fuel
  induction fuel with
  | zero => intro n h; omega
  | succ fuel ih =>
    intro n hn
    simp only [natCharsF]
    by_cases h10 : n < 10
    · rw [if_pos h10]
      exact ⟨n, [], h10, rfl, fun h => h⟩
    · rw [if_neg h10]
      obtain ⟨d, t, hd, heq, hpos⟩ := ih (n / 10) (by omega)
      refine ⟨d, t ++ [digitChar10 (n % 10)], hd, ?_, fun _ => hpos (by omega)⟩
      rw [heq]
      rfl

theorem digitsToNat_append_digit (xs : List Char) (c : Char) :
    digitsToNat (xs ++ [c]) = 10 * digitsToNat xs + (c.toNat - 48) := by
  unfold digitsToNat
  rw [List.foldl_append]
  rfl

theorem digitsToNat_natCharsF : ∀ (fuel n : Nat), n < fuel →
    digitsToNat (natCharsF fuel n) = n := by
  intro fuel
  induction fuel with
  | zero => intro n h; omega
  | succ fuel ih =>
    intro n hn
    simp only [natCharsF]
    by_cases h10 : n < 10
    · rw [if_pos h10]
      show digitsToNat [digitChar10 n] = n
      unfold digitsToNat
      simp only [List.foldl_cons, List.foldl_nil]
      rw [digitChar10_toNat h10]
      omega
    · rw [if_neg h10, digitsToNat_append_digit, ih (n / 10) (by omega),
        digitChar10_toNat (show n % 10 < 10 by omega)]
      omega

theorem takeWhile_all_append (p : Char → Bool) :
    ∀ (l1 l2 : List Char), (∀ c ∈ l1, p c = true) →
      (∀ c, l2.head? = some c → p c = false) →
      (l1 ++ l2).takeWhile p = l1 ∧ (l1 ++ l2).dropWhile p = l2 := by
  intro l1
  induction l1 with
  | nil =>
    intro l2 _ h2
    cases l2 with
    | nil => exact ⟨rfl, rfl⟩
    | cons c t =>
      have := h2 c rfl
      constructor
      · simp [List.takeWhile_cons, this]
      · simp [List.dropWhile_cons, this]
  | cons a l1' ih =>
    intro l2 h1 h2
    have ha : p a = true := h1 a (List.mem_cons_self _ _)
    have := ih l2 (fun c hc => h1 c (List.mem_cons_of_mem a hc)) h2
    constructor
    · simp [List.takeWhile_cons, ha, this.1]
    · simp [List.dropWhile_cons, ha, this.2]

theorem numDelim_head {rest : List Char} (h : numDelim rest = true) :
    ∀ c, rest.head? = some c → isDigitChar c = false := by
  intro c hc
  cases rest with
  | nil => simp at hc
  | cons a t =>
    simp only [List.head?_cons, Option.some.injEq] at hc
    subst hc
    simpa [numDelim] using h

theorem parseNatNum_natChars (m : Nat) (rest : List Char)
    (h : numDelim rest = true) :
    parseNatNum (natChars m ++ rest) = some (m, rest) := by
  unfold parseNatNum natChars
  obtain ⟨htake, hdrop⟩ :=
    takeWhile_all_append isDigitChar (natCharsF (m + 1) m) rest
      (fun c hc => natCharsF_all_digits _ _ c hc) (numDelim_head h)
  rw [htake, hdrop]
  rw [if_neg (by simp [natCharsF_ne_nil (m + 1) m (by omega)])]
  obtain ⟨d, t, hd, heq, hpos⟩ := natCharsF_head (m + 1) m (by omega)
  have hlz : (1 < (natCharsF (m + 1) m).length &&
      (natCharsF (m + 1) m).head? == some '0') = false := by
    by_cases hm : m < 10
    · have : natCharsF (m + 1) m = [digitChar10 m] := by
        simp only [natCharsF]
        rw [if_pos hm]
      rw [this]
      simp
    · have h1 : 1 ≤ m := by omega
      have hd1 : 1 ≤ d := hpos h1
      have : (natCharsF (m + 1) m).head? = some (digitChar10 d) := by
        rw [heq]; rfl
      rw [this]
      have hne : digitChar10 d ≠ '0' := by
        apply char_ne_of_toNat_ne
        rw [digitChar10_toNat hd]
        intro hcon
        have : ('0').toNat = 48 := rfl
        omega
      simp [hne]
  rw [if_neg (by rw [hlz]; simp)]
  rw [digitsToNat_natCharsF (m + 1) m (by omega)]

theorem parseNum_intChars (n : Int) (rest : List Char)
    (h : numDelim rest = true) :
    parseNum (intChars n ++ rest) = some (.num n, rest) := by
  unfold intChars
  by_cases hn : n < 0
  · rw [if_pos hn]
    show parseNum ('-' :: (natChars n.natAbs ++ rest)) = _
    simp only [parseNum]
    rw [if_pos trivial, parseNatNum_natChars n.natAbs rest h]
    have hval : -((n.natAbs : Nat) : Int) = n := by omega
    simp only [Option.map_some']
    rw [hval]
  · rw [if_neg hn]
    obtain ⟨d, t, hd, heq, _⟩ := natCharsF_head (n.natAbs + 1) n.natAbs (by omega)
    show parseNum (natCharsF (n.natAbs + 1) n.natAbs ++ rest) = _
    rw [heq]
    show parseNum (digitChar10 d :: (t ++ rest)) = _
    simp only [parseNum]
    have hne : digitChar10 d ≠ '-' := by
      apply char_ne_of_toNat_ne
      rw [digitChar10_toNat hd]
      intro hcon
      have : ('-').toNat = 45 := rfl
      omega
    rw [if_neg hne]
    have hlist : digitChar10 d :: (t ++ rest) = natChars n.natAbs ++ rest := by
      unfold natChars
      rw [heq]
      rfl
    rw [hlist, parseNatNum_natChars n.natAbs rest h]
    have hval : ((n.natAbs : Nat) : Int) = n := by omega
    simp only [Option.map_some']
    rw [hval]

/-! ## String-literal roundtrip -/

theorem parseStrBodyF_esc : ∀ (fuel : Nat) (s rest : List Char),
    (s.flatMap escChar ++ '"' :: rest).length ≤ fuel →
    parseStrBodyF fuel (s.flatMap escChar ++ '"' :: rest) = some (s, rest) := by
  intro fuel
  induction fuel with
  | zero =>
    intro s rest h
    rw [List.length_append] at h
    simp at h
  | succ fuel ih =>
    intro s rest hlen
    cases s with
    | nil =>
      show parseStrBodyF (fuel + 1) ('"' :: rest) = some ([], rest)
      simp +decide only [parseStrBodyF, if_true, if_false]
    | cons c s' =>
      have hlen2 : (escChar c).length +
          (s'.flatMap escChar ++ '"' :: rest).length ≤ fuel + 1 := by
        rw [List.flatMap_cons, List.append_assoc, List.length_append] at hlen
        exact hlen
      by_cases h1 : c = '"'
      · subst h1
        have htail : (s'.flatMap escChar ++ '"' :: rest).length ≤ fuel := by
          have hk : (escChar '"').length = 2 := rfl
          omega
        rw [List.flatMap_cons, List.append_assoc,
          show escChar '"' = ['\\', '"'] from rfl]
        simp only [List.cons_append, List.nil_append]
        simp +decide only [parseStrBodyF, if_true, if_false]
        rw [ih s' rest htail]
        rfl
      by_cases h2 : c = '\\'
      · subst h2
        have htail : (s'.flatMap escChar ++ '"' :: rest).length ≤ fuel := by
          have hk : (escChar '\\').length = 2 := rfl
          omega
        rw [List.flatMap_cons, List.append_assoc,
          show escChar '\\' = ['\\', '\\'] from rfl]
        simp only [List.cons_append, List.nil_append]
        simp +decide only [parseStrBodyF, if_true, if_false]
        rw [ih s' rest htail]
        rfl
      by_cases h3 : c.toNat = 8
      · have hc : c = '\x08' := char_eq_of_toNat_eq (by rw [h3]; rfl)
        subst hc
        have htail : (s'.flatMap escChar ++ '"' :: rest).length ≤ fuel := by
          have hk : (escChar '\x08').length = 2 := rfl
          omega
        rw [List.flatMap_cons, List.append_assoc,
          show escChar '\x08' = ['\\', 'b'] from rfl]
        simp only [List.cons_append, List.nil_append]
        simp +decide only [parseStrBodyF, if_true, if_false]
        rw [ih s' rest htail]
        rfl
      by_cases h4 : c = '\t'
      · subst h4
        have htail : (s'.flatMap escChar ++ '"' :: rest).length ≤ fuel := by
          have hk : (escChar '\t').length = 2 := rfl
          omega
        rw [List.flatMap_cons, List.append_assoc,
          show escChar '\t' = ['\\', 't'] from rfl]
        simp only [List.cons_append, List.nil_append]
        simp +decide only [parseStrBodyF, if_true, if_false]
        rw [ih s' rest htail]
        rfl
      by_cases h5 : c = '\n'
      · subst h5
        have htail : (s'.flatMap escChar ++ '"' :: rest).length ≤ fuel := by
          have hk : (escChar '\n').length = 2 := rfl
          omega
        rw [List.flatMap_cons, List.append_assoc,
          show escChar '\n' = ['\\', 'n'] from rfl]
        simp only [List.cons_append, List.nil_append]
        simp +decide only [parseStrBodyF, if_true, if_false]
        rw [ih s' rest htail]
        rfl
      by_cases h6 : c.toNat = 12
      · have hc : c = '\x0c' := char_eq_of_toNat_eq (by rw [h6]; rfl)
        subst hc
        have htail : (s'.flatMap escChar ++ '"' :: rest).length ≤ fuel := by
          have hk : (escChar '\x0c').length = 2 := rfl
          omega
        rw [List.flatMap_cons, List.append_assoc,
          show escChar '\x0c' = ['\\', 'f'] from rfl]
        simp only [List.cons_append, List.nil_append]
        simp +decide only [parseStrBodyF, if_true, if_false]
        rw [ih s' rest htail]
        rfl
      by_cases h7 : c = '\r'
      · subst h7
        have htail : (s'.flatMap escChar ++ '"' :: rest).length ≤ fuel := by
          have hk : (escChar '\r').length = 2 := rfl
          omega
        rw [List.flatMap_cons, List.append_assoc,
          show escChar '\r' = ['\\', 'r'] from rfl]
        simp only [List.cons_append, List.nil_append]
        simp +decide only [parseStrBodyF, if_true, if_false]
        rw [ih s' rest htail]
        rfl
      by_cases h8 : c.toNat < 32
      · have hesc : escChar c =
            ['\\', 'u', '0', '0', hexDigitChar (c.toNat / 16),
              hexDigitChar (c.toNat % 16)] := by
          simp only [escChar, beq_iff_eq, h1, h2, h3, h4, h5, h6, h7, h8,
            if_true, if_false]
        have htail : (s'.flatMap escChar ++ '"' :: rest).length ≤ fuel := by
          have hk : (escChar c).length = 6 := by rw [hesc]; rfl
          omega
        rw [List.flatMap_cons, List.append_assoc, hesc]
        simp only [List.cons_append, List.nil_append]
        simp +decide only [parseStrBodyF, if_true, if_false]
        rw [show hexVal '0' = some 0 from rfl,
          hexDigitChar_hexVal (show c.toNat / 16 < 16 by omega),
          hexDigitChar_hexVal (show c.toNat % 16 < 16 by omega)]
        simp only []
        rw [ih s' rest htail]
        simp only [Option.map_some']
        have harith : ((0 * 16 + 0) * 16 + c.toNat / 16) * 16 + c.toNat % 16 =
            c.toNat := by omega
        rw [harith, Char.ofNat_toNat]
      · have hesc : escChar c = [c] := by
          simp only [escChar, beq_iff_eq, h1, h2, h3, h4, h5, h6, h7, h8,
            if_true, if_false]
        have htail : (s'.flatMap escChar ++ '"' :: rest).length ≤ fuel := by
          have hk : (escChar c).length = 1 := by rw [hesc]; rfl
          omega
        rw [List.flatMap_cons, List.append_assoc, hesc]
        simp only [List.cons_append, List.nil_append]
        simp only [parseStrBodyF]
        rw [if_neg h1, if_neg h2, if_neg h8, ih s' rest htail]
        rfl

theorem parseStrBody_quote (s rest : List Char) :
    parseStrBody (s.flatMap escChar ++ '"' :: rest) = some (s, rest) := by
  unfold parseStrBody
  exact parseStrBodyF_esc _ s rest (by omega)

/-! ## Head characters and whitespace facts for the parser -/

theorem isJsonWs_false_of_gt32 {c : Char} (h : 32 < c.toNat) :
    isJsonWs c = false := by
  have e1 : (c == ' ') = false :=
    beq_eq_false_iff_ne.mpr (char_ne_of_toNat_ne (by
      have : (' ').toNat = 32 := rfl
      omega))
  have e2 : (c == '\t') = false :=
    beq_eq_false_iff_ne.mpr (char_ne_of_toNat_ne (by
      have : ('\t').toNat = 9 := rfl
      omega))
  have e3 : (c == '\n') = false :=
    beq_eq_false_iff_ne.mpr (char_ne_of_toNat_ne (by
      have : ('\n').toNat = 10 := rfl
      omega))
  have e4 : (c == '\r') = false :=
    beq_eq_false_iff_ne.mpr (char_ne_of_toNat_ne (by
      have : ('\r').toNat = 13 := rfl
      omega))
  simp [isJsonWs, e1, e2, e3, e4]

theorem skipWs_cons {c : Char} (t : List Char) (h : isJsonWs c = false) :
    skipWs (c :: t) = c :: t := by
  simp [skipWs, List.dropWhile_cons, h]

theorem quoteChars_length (k : List Char) :
    (quoteChars k).length = (k.flatMap escChar).length + 2 := by
  simp [quoteChars]

/-- Every serialization starts with a character that is not JSON
whitespace, not a digit delimiter hazard, and distinct from the closing
brackets. -/
theorem stringify_cons (v : Json) :
    ∃ c t, stringify v = c :: t ∧ 32 < c.toNat ∧ c.toNat ≠ 93 ∧ c.toNat ≠ 125 := by
  cases v with
  | null =>
    exact ⟨'n', 'u' :: 'l' :: 'l' :: [], stringify_null, by decide, by decide,
      by decide⟩
  | bool b =>
    cases b with
    | true =>
      exact ⟨'t', 'r' :: 'u' :: 'e' :: [], rfl, by decide, by decide, by decide⟩
    | false =>
      exact ⟨'f', 'a' :: 'l' :: 's' :: 'e' :: [], rfl, by decide, by decide,
        by decide⟩
  | num n =>
    rw [stringify_num]
    unfold intChars
    by_cases hn : n < 0
    · rw [if_pos hn]
      exact ⟨'-', _, rfl, by decide, by decide, by decide⟩
    · rw [if_neg hn]
      obtain ⟨d, t, hd, heq, _⟩ := natCharsF_head (n.natAbs + 1) n.natAbs (by omega)
      refine ⟨digitChar10 d, t, ?_, ?_, ?_, ?_⟩
      · unfold natChars
        exact heq
      · rw [digitChar10_toNat hd]; omega
      · rw [digitChar10_toNat hd]; omega
      · rw [digitChar10_toNat hd]; omega
  | str s =>
    exact ⟨'"', s.flatMap escChar ++ ['"'], stringify_str s, by decide,
      by decide, by decide⟩
  | arr items =>
    exact ⟨'[', stringifyItems items ++ [']'], stringify_arr items, by decide,
      by decide, by decide⟩
  | obj members =>
    exact ⟨'{', stringifyMembers members ++ ['}'], stringify_obj members,
      by decide, by decide, by decide⟩

theorem stringify_length_pos (v : Json) : 1 ≤ (stringify v).length := by
  obtain ⟨c, t, heq, -, -, -⟩ := stringify_cons v
  rw [heq]
  simp

/-! ## The parse/stringify roundtrip -/

theorem parse_stringify : ∀ fuel : Nat,
    (∀ (v : Json) (rest : List Char), (stringify v).length ≤ fuel →
      numDelim rest = true →
      parseV fuel (stringify v ++ rest) = some (v, rest)) ∧
    (∀ (members : List (List Char × Json)) (rest : List Char), members ≠ [] →
      (stringifyMembers members).length < fuel →
      parseMembers fuel (stringifyMembers members ++ '}' :: rest) =
        some (members, rest)) ∧
    (∀ (items : List Json) (rest : List Char), items ≠ [] →
      (stringifyItems items).length < fuel →
      parseItems fuel (stringifyItems items ++ ']' :: rest) =
        some (items, rest)) := by
  intro fuel
  induction fuel with
  | zero =>
    refine ⟨fun v rest hlen _ => ?_, fun members rest hne hlen => ?_,
      fun items rest hne hlen => ?_⟩
    · have := stringify_length_pos v; omega
    · omega
    · omega
  | succ fuel ih =>
    obtain ⟨ihP, ihQ, ihR⟩ := ih
    refine ⟨?_, ?_, ?_⟩
    · intro v rest hlen hrest
      cases v with
      | null =>
        rw [stringify_null]
        simp only [List.cons_append, List.nil_append]
        have hws : skipWs ('n' :: 'u' :: 'l' :: 'l' :: rest) =
            'n' :: 'u' :: 'l' :: 'l' :: rest := skipWs_cons _ rfl
        simp +decide only [parseV, hws, if_true, if_false, startsList, litNull,
          List.drop]
      | bool b =>
        cases b with
        | true =>
          rw [show stringify (.bool true) = 't' :: 'r' :: 'u' :: 'e' :: [] from rfl]
          simp only [List.cons_append, List.nil_append]
          have hws : skipWs ('t' :: 'r' :: 'u' :: 'e' :: rest) =
              't' :: 'r' :: 'u' :: 'e' :: rest := skipWs_cons _ rfl
          simp +decide only [parseV, hws, if_true, if_false, startsList, litTrue,
            List.drop]
        | false =>
          rw [show stringify (.bool false) =
            'f' :: 'a' :: 'l' :: 's' :: 'e' :: [] from rfl]
          simp only [List.cons_append, List.nil_append]
          have hws : skipWs ('f' :: 'a' :: 'l' :: 's' :: 'e' :: rest) =
              'f' :: 'a' :: 'l' :: 's' :: 'e' :: rest := skipWs_cons _ rfl
          simp +decide only [parseV, hws, if_true, if_false, startsList, litFalse,
            List.drop]
      | num n =>
        rw [stringify_num]
        by_cases hn : n < 0
        · have hichars : intChars n = '-' :: natChars n.natAbs := by
            unfold intChars
            rw [if_pos hn]
          rw [hichars]
          simp only [List.cons_append]
          have hws : skipWs ('-' :: (natChars n.natAbs ++ rest)) =
              '-' :: (natChars n.natAbs ++ rest) := skipWs_cons _ rfl
          simp only [parseV, hws]
          rw [if_neg (by decide : ¬('-' : Char) = '{'),
            if_neg (by decide : ¬('-' : Char) = '['),
            if_neg (by decide : ¬('-' : Char) = '"'),
            if_neg (by decide : ¬('-' : Char) = 'n'),
            if_neg (by decide : ¬('-' : Char) = 't'),
            if_neg (by decide : ¬('-' : Char) = 'f')]
          rw [show '-' :: (natChars n.natAbs ++ rest) =
            ('-' :: natChars n.natAbs) ++ rest from rfl, ← hichars,
            parseNum_intChars n rest hrest]
        · obtain ⟨d, t, hd, heq, _⟩ :=
            natCharsF_head (n.natAbs + 1) n.natAbs (by omega)
          have hint : intChars n = digitChar10 d :: t := by
            unfold intChars
            rw [if_neg hn]
            exact heq
          rw [hint]
          simp only [List.cons_append]
          have htoNat := digitChar10_toNat hd
          have hws : skipWs (digitChar10 d :: (t ++ rest)) =
              digitChar10 d :: (t ++ rest) :=
            skipWs_cons _ (isJsonWs_false_of_gt32 (by omega))
          simp only [parseV, hws]
          have hne : ∀ e : Char, e.toNat < 48 ∨ 57 < e.toNat →
              digitChar10 d ≠ e := fun e he =>
            char_ne_of_toNat_ne (by rw [htoNat]; rcases he with h | h <;> omega)
          rw [if_neg (hne '{' (by decide)), if_neg (hne '[' (by decide)),
            if_neg (hne '"' (by decide)), if_neg (hne 'n' (by decide)),
            if_neg (hne 't' (by decide)), if_neg (hne 'f' (by decide))]
          rw [show digitChar10 d :: (t ++ rest) =
            (digitChar10 d :: t) ++ rest from rfl, ← hint,
            parseNum_intChars n rest hrest]
      | str s =>
        rw [stringify_str]
        have hq : quoteChars s ++ rest =
            '"' :: (s.flatMap escChar ++ '"' :: rest) := by
          simp [quoteChars, List.append_assoc]
        rw [hq]
        have hws := skipWs_cons (s.flatMap escChar ++ '"' :: rest)
          (rfl : isJsonWs '"' = false)
        simp +decide only [parseV, hws, if_true, if_false]
        rw [parseStrBody_quote s rest]
        rfl
      | arr items =>
        rw [stringify_arr] at hlen ⊢
        have hli : ('[' :: stringifyItems items ++ [']']) ++ rest =
            '[' :: (stringifyItems items ++ ']' :: rest) := by
          simp
        rw [hli]
        have hws := skipWs_cons (stringifyItems items ++ ']' :: rest)
          (rfl : isJsonWs '[' = false)
        simp +decide only [parseV, hws, if_true, if_false]
        cases items with
        | nil =>
          rw [stringifyItems_nil]
          simp only [List.nil_append]
          have hws2 := skipWs_cons rest (rfl : isJsonWs ']' = false)
          rw [hws2]
          simp +decide only [if_true, if_false]
        | cons w items' =>
          obtain ⟨c0, t0, hsv, hgt, h93, h125⟩ := stringify_cons w
          have hshape : ∃ T, stringifyItems (w :: items') ++ ']' :: rest =
              c0 :: T := by
            cases items' with
            | nil =>
              refine ⟨t0 ++ ']' :: rest, ?_⟩
              rw [stringifyItems_single, hsv]
              simp
            | cons u us =>
              refine ⟨t0 ++ ',' :: stringifyItems (u :: us) ++ ']' :: rest, ?_⟩
              rw [stringifyItems_cons, hsv]
              simp [List.append_assoc]
          obtain ⟨T, hT⟩ := hshape
          rw [hT]
          have hws2 := skipWs_cons T (isJsonWs_false_of_gt32 hgt)
          rw [hws2]
          simp only []
          have hc0 : ¬c0 = ']' := char_ne_of_toNat_ne (by
            rw [show (']').toNat = 93 from rfl]
            exact h93)
          rw [if_neg hc0, ← hT]
          rw [ihR (w :: items') rest (by simp) (by
            simp only [List.length_cons, List.length_append,
              List.length_nil] at hlen
            omega)]
          rfl
      | obj members =>
        rw [stringify_obj] at hlen ⊢
        have hli : ('{' :: stringifyMembers members ++ ['}']) ++ rest =
            '{' :: (stringifyMembers members ++ '}' :: rest) := by
          simp
        rw [hli]
        have hws := skipWs_cons (stringifyMembers members ++ '}' :: rest)
          (rfl : isJsonWs '{' = false)
        simp +decide only [parseV, hws, if_true, if_false]
        cases members with
        | nil =>
          rw [stringifyMembers_nil]
          simp only [List.nil_append]
          have hws2 := skipWs_cons rest (rfl : isJsonWs '}' = false)
          rw [hws2]
          simp +decide only [if_true, if_false]
        | cons kv members' =>
          obtain ⟨k, v⟩ := kv
          have hshape : ∃ T, stringifyMembers ((k, v) :: members') ++
              '}' :: rest = '"' :: T := by
            cases members' with
            | nil =>
              refine ⟨k.flatMap escChar ++ ['"'] ++ ':' :: stringify v ++
                '}' :: rest, ?_⟩
              rw [stringifyMembers_single]
              simp [quoteChars, List.append_assoc]
            | cons kv2 ms =>
              refine ⟨k.flatMap escChar ++ ['"'] ++ ':' :: stringify v ++
                ',' :: stringifyMembers (kv2 :: ms) ++ '}' :: rest, ?_⟩
              rw [stringifyMembers_cons]
              simp [quoteChars, List.append_assoc]
          obtain ⟨T, hT⟩ := hshape
          rw [hT]
          have hws2 := skipWs_cons T (rfl : isJsonWs '"' = false)
          rw [hws2]
          simp only []
          rw [if_neg (by decide : ¬('"' : Char) = '}'), ← hT]
          rw [ihQ ((k, v) :: members') rest (by simp) (by
            simp only [List.length_cons, List.length_append,
              List.length_nil] at hlen
            omega)]
          rfl
    · intro members rest hne hlen
      cases members with
      | nil => exact absurd rfl hne
      | cons kv members' =>
        obtain ⟨k, v⟩ := kv
        have hqlen := quoteChars_length k
        cases members' with
        | nil =>
          rw [stringifyMembers_single] at hlen ⊢
          have hform : (quoteChars k ++ ':' :: stringify v) ++ '}' :: rest =
              '"' :: (k.flatMap escChar ++
                '"' :: (':' :: (stringify v ++ '}' :: rest))) := by
            simp [quoteChars, List.append_assoc]
          rw [hform]
          simp +decide only [parseMembers, if_true, if_false]
          rw [parseStrBody_quote k (':' :: (stringify v ++ '}' :: rest))]
          have hws := skipWs_cons (stringify v ++ '}' :: rest)
            (rfl : isJsonWs ':' = false)
          simp +decide only [hws, if_true, if_false]
          rw [ihP v ('}' :: rest) (by
            simp only [List.length_append, List.length_cons] at hlen
            omega) rfl]
          have hws2 := skipWs_cons rest (rfl : isJsonWs '}' = false)
          simp +decide only [hws2, if_true, if_false]
        | cons kv2 ms =>
          rw [stringifyMembers_cons] at hlen ⊢
          have hform : (quoteChars k ++ ':' :: stringify v ++
                ',' :: stringifyMembers (kv2 :: ms)) ++ '}' :: rest =
              '"' :: (k.flatMap escChar ++
                '"' :: (':' :: (stringify v ++
                  ',' :: (stringifyMembers (kv2 :: ms) ++ '}' :: rest)))) := by
            simp [quoteChars, List.append_assoc]
          rw [hform]
          simp +decide only [parseMembers, if_true, if_false]
          rw [parseStrBody_quote k (':' :: (stringify v ++
            ',' :: (stringifyMembers (kv2 :: ms) ++ '}' :: rest)))]
          have hws := skipWs_cons (stringify v ++
              ',' :: (stringifyMembers (kv2 :: ms) ++ '}' :: rest))
            (rfl : isJsonWs ':' = false)
          simp +decide only [hws, if_true, if_false]
          rw [ihP v (',' :: (stringifyMembers (kv2 :: ms) ++ '}' :: rest)) (by
            simp only [List.length_append, List.length_cons] at hlen
            omega) rfl]
          have hws2 := skipWs_cons (stringifyMembers (kv2 :: ms) ++ '}' :: rest)
            (rfl : isJsonWs ',' = false)
          simp +decide only [hws2, if_true, if_false]
          have hws3 : skipWs (stringifyMembers (kv2 :: ms) ++ '}' :: rest) =
              stringifyMembers (kv2 :: ms) ++ '}' :: rest := by
            obtain ⟨k2, v2⟩ := kv2
            have hshape : ∃ T, stringifyMembers ((k2, v2) :: ms) ++
                '}' :: rest = '"' :: T := by
              cases ms with
              | nil =>
                refine ⟨k2.flatMap escChar ++ ['"'] ++ ':' :: stringify v2 ++
                  '}' :: rest, ?_⟩
                rw [stringifyMembers_single]
                simp [quoteChars, List.append_assoc]
              | cons kv3 ms' =>
                refine ⟨k2.flatMap escChar ++ ['"'] ++ ':' :: stringify v2 ++
                  ',' :: stringifyMembers (kv3 :: ms') ++ '}' :: rest, ?_⟩
                rw [stringifyMembers_cons]
                simp [quoteChars, List.append_assoc]
            obtain ⟨T, hT⟩ := hshape
            rw [hT]
            exact skipWs_cons T (rfl : isJsonWs '"' = false)
          rw [hws3]
          rw [ihQ (kv2 :: ms) rest (by simp) (by
            simp only [List.length_append, List.length_cons] at hlen
            have hvp := stringify_length_pos v
            omega)]
          rfl
    · intro items rest hne hlen
      cases items with
      | nil => exact absurd rfl hne
      | cons v items' =>
        cases items' with
        | nil =>
          rw [stringifyItems_single] at hlen ⊢
          simp only [parseItems]
          rw [ihP v (']' :: rest) (by omega) rfl]
          have hws := skipWs_cons rest (rfl : isJsonWs ']' = false)
          simp +decide only [hws, if_true, if_false]
        | cons w items'' =>
          rw [stringifyItems_cons] at hlen ⊢
          simp only [parseItems]
          rw [List.append_assoc]
          simp only [List.cons_append]
          rw [ihP v (',' :: (stringifyItems (w :: items'') ++ ']' :: rest)) (by
            simp only [List.length_append, List.length_cons] at hlen
            omega) rfl]
          have hws := skipWs_cons (stringifyItems (w :: items'') ++ ']' :: rest)
            (rfl : isJsonWs ',' = false)
          simp +decide only [hws, if_true, if_false]
          rw [ihR (w :: items'') rest (by simp) (by
            simp only [List.length_append, List.length_cons] at hlen
            have hvp := stringify_length_pos v
            omega)]
          rfl

/-- `JSON.parse` inverts `JSON.stringify` exactly (in the integer-numbered
model). -/
theorem jsonParse_stringify (v : Json) : jsonParse (stringify v) = some v := by
  unfold jsonParse
  have h := (parse_stringify ((stringify v).length + 1)).1 v [] (by omega) rfl
  rw [List.append_nil] at h
  rw [h]
  rfl

/-! ## The fence-stripping pipeline on fenced serializations -/

theorem hasFence_tail {a : Char} {t : List Char} (h : hasFence (a :: t) = false) :
    hasFence t = false := by
  match t with
  | [] => rfl
  | [b] => rfl
  | b :: c :: t' =>
    rw [hasFence] at h
    exact (Bool.or_eq_false_iff.mp h).2

theorem startsList_ticks_of_json {l : List Char}
    (h : startsList fenceJson l = true) : startsList fenceTicks l = true := by
  match l with
  | a :: b :: c :: t =>
    simp only [fenceJson, startsList, Bool.and_eq_true] at h
    simp only [fenceTicks, startsList, Bool.and_eq_true]
    exact ⟨h.1, h.2.1, h.2.2.1, trivial⟩
  | [] | [_] | [_, _] => simp [fenceTicks, fenceJson, startsList] at h ⊢

theorem beq_comm_char (x y : Char) : (x == y) = (y == x) := by
  by_cases h : x = y
  · subst h; rfl
  · rw [beq_eq_false_iff_ne.mpr h, beq_eq_false_iff_ne.mpr (Ne.symm h)]

/-- If a text has no triple backtick, then gluing `"\n```"` to its right
still leaves no fence match at its very beginning. -/
theorem no_ticks_at_junction {s : List Char} (r : List Char)
    (h : hasFence s = false) :
    startsList fenceTicks (s ++ '\n' :: r) = false := by
  match s with
  | [] => rfl
  | [a] =>
    simp only [List.cons_append, List.nil_append, fenceTicks, startsList]
    simp [show ('`' == '\n') = false from rfl]
  | [a, b] =>
    simp only [List.cons_append, List.nil_append, fenceTicks, startsList]
    simp [show ('`' == '\n') = false from rfl]
  | a :: b :: c :: t =>
    rw [hasFence] at h
    obtain ⟨h1, -⟩ := Bool.or_eq_false_iff.mp h
    simp only [List.cons_append, fenceTicks, startsList]
    rw [beq_comm_char '`' a, beq_comm_char '`' b, beq_comm_char '`' c]
    simp only [startsList, Bool.and_true]
    rw [← Bool.and_assoc]
    exact h1

theorem startsList_self_append : ∀ (p t : List Char), startsList p (p ++ t) = true := by
  intro p
  induction p with
  | nil => intro t; rfl
  | cons a ps ih =>
    intro t
    simp only [List.cons_append, startsList, beq_self_eq_true, Bool.true_and]
    exact ih t

theorem replaceFenceJsonF_succ (fuel : Nat) (l : List Char) :
    replaceFenceJsonF (fuel + 1) l =
      if startsList fenceJson l then
        replaceFenceJsonF fuel ((l.drop 7).dropWhile isJsWs)
      else
        match l with
        | [] => []
        | c :: t => c :: replaceFenceJsonF fuel t := rfl

theorem replaceFenceTicksF_succ (fuel : Nat) (l : List Char) :
    replaceFenceTicksF (fuel + 1) l =
      if startsList fenceTicks l then
        replaceFenceTicksF fuel ((l.drop 3).dropWhile isJsWs)
      else
        match l with
        | [] => []
        | c :: t => c :: replaceFenceTicksF fuel t := rfl

/-- The json-fence scan leaves every suffix of a lone `` ``` `` untouched
(`` ```json `` cannot match there). -/
theorem rfjF_fixT : ∀ (fuel : Nat) (t : List Char),
    (t = '`' :: '`' :: '`' :: [] ∨ t = '`' :: '`' :: [] ∨
      t = '`' :: [] ∨ t = []) →
    replaceFenceJsonF fuel t = t := by
  intro fuel
  induction fuel with
  | zero => intro t _; rfl
  | succ fuel ih =>
    intro t ht
    rcases ht with rfl | rfl | rfl | rfl
    · rw [replaceFenceJsonF_succ, if_neg (by decide)]
      show '`' :: replaceFenceJsonF fuel ('`' :: '`' :: []) = _
      rw [ih _ (Or.inr (Or.inl rfl))]
    · rw [replaceFenceJsonF_succ, if_neg (by decide)]
      show '`' :: replaceFenceJsonF fuel ('`' :: []) = _
      rw [ih _ (Or.inr (Or.inr (Or.inl rfl)))]
    · rw [replaceFenceJsonF_succ, if_neg (by decide)]
      show '`' :: replaceFenceJsonF fuel [] = _
      rw [ih _ (Or.inr (Or.inr (Or.inr rfl)))]
    · rfl

/-- The json-fence scan is the identity on `s ++ "\n```"` when `s`
contains no triple backtick. -/
theorem rfjF_skip : ∀ (s : List Char), hasFence s = false → ∀ (fuel : Nat),
    replaceFenceJsonF fuel (s ++ '\n' :: fenceTicks) =
      s ++ '\n' :: fenceTicks := by
  intro s
  induction s with
  | nil =>
    intro _ fuel
    cases fuel with
    | zero => rfl
    | succ fuel =>
      simp only [List.nil_append]
      rw [replaceFenceJsonF_succ, if_neg (by decide)]
      show '\n' :: replaceFenceJsonF fuel fenceTicks = _
      rw [rfjF_fixT fuel fenceTicks (Or.inl rfl)]
  | cons a s' ih =>
    intro h fuel
    cases fuel with
    | zero => rfl
    | succ fuel =>
      have hnt := no_ticks_at_junction (r := fenceTicks) (s := a :: s') h
      have hnj : ¬startsList fenceJson
          ((a :: s') ++ '\n' :: fenceTicks) = true := by
        intro hj
        rw [startsList_ticks_of_json hj] at hnt
        exact Bool.noConfusion hnt
      simp only [List.cons_append] at hnj ⊢
      rw [replaceFenceJsonF_succ, if_neg hnj]
      show a :: replaceFenceJsonF fuel (s' ++ '\n' :: fenceTicks) = _
      rw [ih (hasFence_tail h) fuel]

/-- `replaceFenceJson` on a fenced blob whose body has no triple backtick
and starts with a non-whitespace character: the opener and the whitespace
after it are deleted, the rest is kept. -/
theorem replaceFenceJson_fenced (c : Char) (t : List Char)
    (hc : isJsWs c = false) (hs : hasFence (c :: t) = false) :
    replaceFenceJson (fencedWrap (c :: t)) =
      (c :: t) ++ '\n' :: fenceTicks := by
  unfold replaceFenceJson fencedWrap
  rw [List.append_assoc]
  rw [replaceFenceJsonF_succ,
    if_pos (startsList_self_append fenceJson
      (('\n' :: (c :: t)) ++ '\n' :: fenceTicks))]
  rw [show (7 : Nat) = fenceJson.length from rfl, List.drop_left]
  rw [show (('\n' :: (c :: t)) ++ '\n' :: fenceTicks).dropWhile isJsWs =
      (c :: t) ++ '\n' :: fenceTicks from by
    simp only [List.cons_append, List.dropWhile_cons]
    rw [if_pos (show isJsWs '\n' = true from rfl),
      if_neg (show ¬isJsWs c = true from by rw [hc]; exact Bool.noConfusion)]]
  exact rfjF_skip (c :: t) hs _

theorem rftF_nil : ∀ fuel : Nat, replaceFenceTicksF fuel [] = [] := by
  intro fuel
  cases fuel with
  | zero => rfl
  | succ fuel => rfl

/-- The tick-fence scan on `s ++ "\n```"` (no triple backtick in `s`)
deletes exactly the closing fence. -/
theorem rftF_skip : ∀ (s : List Char), hasFence s = false → ∀ (fuel : Nat),
    s.length + 2 ≤ fuel →
    replaceFenceTicksF fuel (s ++ '\n' :: fenceTicks) = s ++ ['\n'] := by
  intro s
  induction s with
  | nil =>
    intro _ fuel hfuel
    cases fuel with
    | zero => exact absurd hfuel (by omega)
    | succ fuel =>
      cases fuel with
      | zero => exact absurd hfuel (by simp at hfuel)
      | succ fuel =>
        simp only [List.nil_append]
        rw [replaceFenceTicksF_succ, if_neg (by decide)]
        rw [show ('\n' :: fenceTicks) = '\n' :: fenceTicks from rfl]
        show '\n' :: replaceFenceTicksF (fuel + 1) fenceTicks = ['\n']
        rw [replaceFenceTicksF_succ, if_pos (by decide)]
        rw [show (fenceTicks.drop 3).dropWhile isJsWs = [] from rfl,
          rftF_nil fuel]
  | cons a s' ih =>
    intro h fuel hfuel
    cases fuel with
    | zero => exact absurd hfuel (by omega)
    | succ fuel =>
      have hnt := no_ticks_at_junction (r := fenceTicks) (s := a :: s') h
      have hnt' : ¬startsList fenceTicks
          ((a :: s') ++ '\n' :: fenceTicks) = true := by
        rw [hnt]
        exact Bool.noConfusion
      simp only [List.cons_append] at hnt' ⊢
      rw [replaceFenceTicksF_succ, if_neg hnt']
      show a :: replaceFenceTicksF fuel (s' ++ '\n' :: fenceTicks) = _
      rw [ih (hasFence_tail h) fuel (by
        simp only [List.length_cons] at hfuel
        omega)]

/-- The brace-span regex on a serialized object followed by the leftover
newline: the first such brace is at index 0, the last closer is the
object's final character, so the match is exactly the serialized object. -/
theorem braceSpan_wrapped (mid : List Char) :
    braceSpan (('{' :: mid ++ ['}']) ++ ['\n']) = some ('{' :: mid ++ ['}']) := by
  unfold braceSpan
  rw [show (('{' :: mid ++ ['}']) ++ ['\n']).findIdx? (fun c => c == '{') =
      some 0 from by
    simp [List.findIdx?_cons]]
  rw [show (('{' :: mid ++ ['}']) ++ ['\n']).reverse =
      '\n' :: '}' :: (mid.reverse ++ ['{']) from by
    simp [List.reverse_append, List.reverse_cons]]
  rw [show List.findIdx? (fun c => c == '}')
      ('\n' :: '}' :: (mid.reverse ++ ['{'])) = some 1 from by
    rw [List.findIdx?_cons, if_neg (by decide), List.findIdx?_cons,
      if_pos (by decide)]]
  simp only []
  have hlen : (('{' :: mid ++ ['}']) ++ ['\n']).length = mid.length + 3 := by
    simp
  rw [hlen, if_pos (by omega), List.drop_zero]
  have harith : mid.length + 3 - 1 - 1 - 0 + 1 = ('{' :: mid ++ ['}']).length := by
    simp only [List.length_cons, List.length_append, List.length_nil]
    omega
  rw [harith, List.take_left]

theorem escChar_ge32 (c x : Char) (hx : x ∈ escChar c) : 32 ≤ x.toNat := by
  unfold escChar at hx
  split_ifs at hx with h1 h2 h3 h4 h5 h6 h7 h8
  · simp only [List.mem_cons, List.not_mem_nil, or_false] at hx
    rcases hx with rfl | rfl <;> decide
  · simp only [List.mem_cons, List.not_mem_nil, or_false] at hx
    rcases hx with rfl | rfl <;> decide
  · simp only [List.mem_cons, List.not_mem_nil, or_false] at hx
    rcases hx with rfl | rfl <;> decide
  · simp only [List.mem_cons, List.not_mem_nil, or_false] at hx
    rcases hx with rfl | rfl <;> decide
  · simp only [List.mem_cons, List.not_mem_nil, or_false] at hx
    rcases hx with rfl | rfl <;> decide
  · simp only [List.mem_cons, List.not_mem_nil, or_false] at hx
    rcases hx with rfl | rfl <;> decide
  · simp only [List.mem_cons, List.not_mem_nil, or_false] at hx
    rcases hx with rfl | rfl <;> decide
  · simp only [List.mem_cons, List.not_mem_nil, or_false] at hx
    rcases hx with rfl | rfl | rfl | rfl | rfl | rfl
    · decide
    · decide
    · decide
    · decide
    · exact hexDigitChar_ge32 _
    · exact hexDigitChar_ge32 _
  · simp only [List.mem_cons, List.not_mem_nil, or_false] at hx
    subst hx
    omega


/-- Every character of a serialization has code point at least 32: the
below-0x20 range is always escaped by `JSON.stringify`. -/
theorem stringify_ge32 : ∀ N : Nat,
    (∀ v : Json, sizeOf v ≤ N → ∀ c ∈ stringify v, 32 ≤ c.toNat) ∧
    (∀ items : List Json, sizeOf items ≤ N →
      ∀ c ∈ stringifyItems items, 32 ≤ c.toNat) ∧
    (∀ members : List (List Char × Json), sizeOf members ≤ N →
      ∀ c ∈ stringifyMembers members, 32 ≤ c.toNat) := by
  intro N
  induction N using Nat.strong_induction_on with
  | _ N ih =>
    refine ⟨?_, ?_, ?_⟩
    · intro v hN c hc
      cases v with
      | null =>
        rw [stringify_null] at hc
        simp only [List.mem_cons, List.not_mem_nil, or_false] at hc
        rcases hc with rfl | rfl | rfl | rfl <;> decide
      | bool b =>
        cases b with
        | true =>
          rw [show stringify (.bool true) =
            't' :: 'r' :: 'u' :: 'e' :: [] from rfl] at hc
          simp only [List.mem_cons, List.not_mem_nil, or_false] at hc
          rcases hc with rfl | rfl | rfl | rfl <;> decide
        | false =>
          rw [show stringify (.bool false) =
            'f' :: 'a' :: 'l' :: 's' :: 'e' :: [] from rfl] at hc
          simp only [List.mem_cons, List.not_mem_nil, or_false] at hc
          rcases hc with rfl | rfl | rfl | rfl | rfl <;> decide
      | num n =>
        rw [stringify_num] at hc
        unfold intChars at hc
        by_cases hn : n < 0
        · rw [if_pos hn] at hc
          rcases List.mem_cons.mp hc with rfl | hc2
          · decide
          · have := natCharsF_all_digits _ _ c hc2
            simp only [isDigitChar, Bool.and_eq_true, decide_eq_true_eq] at this
            omega
        · rw [if_neg hn] at hc
          have := natCharsF_all_digits _ _ c hc
          simp only [isDigitChar, Bool.and_eq_true, decide_eq_true_eq] at this
          omega
      | str s =>
        rw [stringify_str] at hc
        unfold quoteChars at hc
        rcases List.mem_cons.mp hc with rfl | hc2
        · decide
        · rcases List.mem_append.mp hc2 with hc3 | hc3
          · obtain ⟨y, -, hy⟩ := List.mem_flatMap.mp hc3
            exact escChar_ge32 y c hy
          · simp only [List.mem_singleton] at hc3
            subst hc3
            decide
      | arr items =>
        have hN1 : 1 ≤ N := by
          have := json_sizeOf_pos (.arr items)
          omega
        rw [stringify_arr] at hc
        rcases List.mem_cons.mp hc with rfl | hc2
        · decide
        · rcases List.mem_append.mp hc2 with hc3 | hc3
          · refine (ih (N - 1) (by omega)).2.1 items ?_ c hc3
            simp only [Json.arr.sizeOf_spec] at hN
            omega
          · simp only [List.mem_singleton] at hc3
            subst hc3
            decide
      | obj members =>
        have hN1 : 1 ≤ N := by
          have := json_sizeOf_pos (.obj members)
          omega
        rw [stringify_obj] at hc
        rcases List.mem_cons.mp hc with rfl | hc2
        · decide
        · rcases List.mem_append.mp hc2 with hc3 | hc3
          · refine (ih (N - 1) (by omega)).2.2 members ?_ c hc3
            simp only [Json.obj.sizeOf_spec] at hN
            omega
          · simp only [List.mem_singleton] at hc3
            subst hc3
            decide
    · intro items hN c hc
      cases items with
      | nil =>
        rw [stringifyItems_nil] at hc
        simp at hc
      | cons v rest =>
        have hN1 : 1 ≤ N := by
          have := list_json_sizeOf_pos (v :: rest)
          omega
        simp only [List.cons.sizeOf_spec] at hN
        cases rest with
        | nil =>
          rw [stringifyItems_single] at hc
          refine (ih (N - 1) (by omega)).1 v (by omega) c hc
        | cons w rest' =>
          rw [stringifyItems_cons] at hc
          rcases List.mem_append.mp hc with hc2 | hc2
          · refine (ih (N - 1) (by omega)).1 v (by omega) c hc2
          · rcases List.mem_cons.mp hc2 with rfl | hc3
            · decide
            · refine (ih (N - 1) (by omega)).2.1 (w :: rest') (by omega) c hc3
    · intro members hN c hc
      cases members with
      | nil =>
        rw [stringifyMembers_nil] at hc
        simp at hc
      | cons kv rest =>
        obtain ⟨k, v⟩ := kv
        have hN1 : 1 ≤ N := by
          have := list_members_sizeOf_pos ((k, v) :: rest)
          omega
        simp only [List.cons.sizeOf_spec, Prod.mk.sizeOf_spec] at hN
        have hquote : ∀ x ∈ quoteChars k, 32 ≤ x.toNat := by
          intro x hx
          unfold quoteChars at hx
          rcases List.mem_cons.mp hx with rfl | hx2
          · decide
          · rcases List.mem_append.mp hx2 with hx3 | hx3
            · obtain ⟨y, -, hy⟩ := List.mem_flatMap.mp hx3
              exact escChar_ge32 y x hy
            · simp only [List.mem_singleton] at hx3
              subst hx3
              decide
        cases rest with
        | nil =>
          rw [stringifyMembers_single] at hc
          rcases List.mem_append.mp hc with hc2 | hc2
          · exact hquote c hc2
          · rcases List.mem_cons.mp hc2 with rfl | hc3
            · decide
            · refine (ih (N - 1) (by omega)).1 v (by omega) c hc3
        | cons kv2 rest' =>
          rw [stringifyMembers_cons] at hc
          rcases List.mem_append.mp hc with hc2 | hc2
          · rcases List.mem_append.mp hc2 with hc4 | hc4
            · exact hquote c hc4
            · rcases List.mem_cons.mp hc4 with rfl | hc5
              · decide
              · refine (ih (N - 1) (by omega)).1 v (by omega) c hc5
          · rcases List.mem_cons.mp hc2 with rfl | hc3
            · decide
            · refine (ih (N - 1) (by omega)).2.2 (kv2 :: rest') (by omega) c hc3

/-- Trimming is the identity on a fenced blob: both ends are backticks,
which are not JS whitespace. -/
theorem jsTrim_fencedWrap (s : List Char) :
    jsTrim (fencedWrap s) = fencedWrap s := by
  have h1 : (fencedWrap s).dropWhile isJsWs = fencedWrap s := by
    unfold fencedWrap
    simp only [fenceJson, List.cons_append]
    rw [List.dropWhile_cons, if_neg (by decide)]
  have h2 : (fencedWrap s).reverse.dropWhile isJsWs = (fencedWrap s).reverse := by
    have hrev : (fencedWrap s).reverse =
        '`' :: ('`' :: '`' :: '\n' :: (s.reverse ++
          '\n' :: 'n' :: 'o' :: 's' :: 'j' :: '`' :: '`' :: '`' :: [])) := by
      unfold fencedWrap
      simp [fenceJson, fenceTicks, List.reverse_append]
    rw [hrev, List.dropWhile_cons, if_neg (by decide)]
  unfold jsTrim
  rw [h1, h2, List.reverse_reverse]

theorem replaceChar_eq_self {a : Char} (repl : List Char) :
    ∀ {l : List Char}, (∀ c ∈ l, (c == a) = false) → replaceChar a repl l = l := by
  intro l h
  induction l with
  | nil => rfl
  | cons d t ih =>
    have hd : ¬((d == a) = true) := by
      rw [h d (List.mem_cons_self d t)]
      exact Bool.noConfusion
    have ht := ih (fun c hc => h c (List.mem_cons_of_mem d hc))
    unfold replaceChar at ht ⊢
    rw [List.flatMap_cons, if_neg hd, ht]
    rfl

/-- The cleanup chain is the identity on text whose characters all have
code point at least 32 and avoid the `\u007F`–`\u009F` range. -/
theorem cleanJsonStr_eq_self {l : List Char}
    (hge : ∀ c ∈ l, 32 ≤ c.toNat) (hcc : noC1Range l = true) :
    cleanJsonStr l = l := by
  have hrc : removeCtrl l = l := by
    unfold removeCtrl
    rw [List.filter_eq_self]
    intro c hc
    have h1 := hge c hc
    unfold noC1Range at hcc
    rw [List.all_eq_true] at hcc
    have h2 := hcc c hc
    simp only [Bool.not_eq_true', Bool.and_eq_false_iff,
      decide_eq_false_iff_not, not_le] at h2
    simp only [isRemovableCtrl, Bool.not_eq_true', Bool.or_eq_false_iff,
      decide_eq_false_iff_not, not_lt, Bool.and_eq_false_iff, not_le]
    omega
  have hne : ∀ (b : Char), b.toNat < 32 → ∀ c ∈ l, (c == b) = false := by
    intro b hb c hc
    have hcge := hge c hc
    rw [beq_eq_false_iff_ne]
    intro hcb
    subst hcb
    omega
  unfold cleanJsonStr
  rw [hrc, replaceChar_eq_self _ (hne '\n' (by decide)),
    replaceChar_eq_self _ (hne '\r' (by decide)),
    replaceChar_eq_self _ (hne '\t' (by decide))]

/-- The invariant of error-free call sequences: histories reachable
through completed `processMessage` calls only keep the system prompt at
index 0 and stay at length at most 21. -/
theorem chatOk_invariant (h : List ChatMsg) (hr : ChatReachable h) :
    (∃ sys, h.head? = some { role := .system, content := sys }) ∧
      h.length ≤ 21 := by
  induction hr with
  | init sys => exact ⟨⟨sys, rfl⟩, by simp [chatInit]⟩
  | step h m b _ ih =>
    obtain ⟨⟨sys, hhead⟩, hlen⟩ := ih
    cases h with
    | nil => simp at hhead
    | cons hd t =>
      have hd_eq : hd = { role := Role.system, content := sys } := by
        simpa using hhead
      simp only [processMessageHistory, List.cons_append, List.nil_append]
      by_cases hl : 20 < (hd :: (t ++ [({ role := Role.user, content := m } : ChatMsg)] ++
          [({ role := Role.assistant, content := b } : ChatMsg)])).length
      · rw [if_pos hl]
        refine ⟨⟨sys, by simp [hd_eq]⟩, ?_⟩
        rw [List.length_append, List.length_take, List.length_drop]
        simp only [List.length_cons, List.length_append, List.length_nil] at hlen hl ⊢
        omega
      · rw [if_neg hl]
        refine ⟨⟨sys, by simp [hd_eq]⟩, ?_⟩
        simp only [List.length_cons, List.length_append, List.length_nil] at hlen hl ⊢
        omega

theorem catchCalls_reachable (n : Nat) : ChatReachableAny (catchCalls n) := by
  induction n with
  | zero => exact ChatReachableAny.init []
  | succ n ih => exact ChatReachableAny.err (catchCalls n) [] ih

/-! ## The claims -/

/-- C1: for every input string, `parseJSONResponse` never lets an exception
escape: it returns a `RecoveryResult` on every path — `parsed` with the
extracted value, or `fallback` carrying the synthesized default object
together with the original raw text (both the marketing and the analytics
variants). -/
theorem claim_C1_recovery_total (response : List Char) :
    ((∃ v, parseJSONResponseMarketing response = .parsed v) ∨
      parseJSONResponseMarketing response =
        .fallback (marketingFallback response) response) ∧
    ((∃ v, parseJSONResponseAnalytics response = .parsed v) ∨
      parseJSONResponseAnalytics response =
        .fallback (analyticsFallbackNoMatch response) response ∨
      parseJSONResponseAnalytics response =
        .fallback (analyticsFallbackInvalid response) response) := by
  constructor
  · simp only [parseJSONResponseMarketing]
    split
    · split
      · exact Or.inl ⟨_, rfl⟩
      · exact Or.inr rfl
    · exact Or.inr rfl
  · simp only [parseJSONResponseAnalytics]
    split
    · split
      · exact Or.inl ⟨_, rfl⟩
      · exact Or.inr (Or.inr rfl)
    · exact Or.inr (Or.inl rfl)

/-- C3: any input without a `'\x7b'` character (in particular the empty and
the whitespace-only string) makes the recovery operation return the
fallback carrying the caller's default object and the raw text unchanged. -/
theorem claim_C3_no_brace_fallback (s : List Char) (h : '{' ∉ s) :
    parseJSONResponseMarketing s = .fallback (marketingFallback s) s ∧
    parseJSONResponseAnalytics s = .fallback (analyticsFallbackNoMatch s) s := by
  have hb : braceSpan (replaceFenceTicks (replaceFenceJson (jsTrim s))) = none :=
    braceSpan_eq_none fun hm => h (mem_of_mem_cleanFront hm)
  constructor
  · simp only [parseJSONResponseMarketing, hb]
  · simp only [parseJSONResponseAnalytics, hb]

/-- Witness for C3 at the concrete whitespace-only input `"  "`. -/
theorem claim_C3_witness :
    parseJSONResponseMarketing (' ' :: ' ' :: []) =
      .fallback (marketingFallback (' ' :: ' ' :: [])) (' ' :: ' ' :: []) ∧
    parseJSONResponseAnalytics (' ' :: ' ' :: []) =
      .fallback (analyticsFallbackNoMatch (' ' :: ' ' :: [])) (' ' :: ' ' :: []) :=
  claim_C3_no_brace_fallback (' ' :: ' ' :: []) (by decide)

/-- C4: for every engagement state (all counters are non-negative integers
by type, including `totalEmails = 0`) and any call time, the computed
engagement score lies in the closed interval `[0, 100]` — the source clamps
with `Math.min(100, Math.max(0, score))` before storing. -/
theorem claim_C4_score_bounds (now : ℚ) (lead : Lead) :
    0 ≤ calculateEngagementScore now lead ∧
      calculateEngagementScore now lead ≤ 100 ∧
      (storeEngagementScore now lead).engagement.engagementScore =
        calculateEngagementScore now lead := by
  refine ⟨?_, ?_, rfl⟩
  · simp only [calculateEngagementScore]
    exact le_min (by norm_num) (le_max_left _ _)
  · simp only [calculateEngagementScore]
    exact min_le_left _ _

/-- C5 is refuted: the counters `emailsOpened = 1 ≤ 2` on an otherwise
fixed state (1000 emails sent, one link clicked), yet the score at two
opens is strictly below the score at one open — the click summand divides
by `emailsOpened`, so the full score is not monotone in it. -/
theorem claim_C5_counterexample :
    (leadOpened 1).engagement.emailsOpened ≤ (leadOpened 2).engagement.emailsOpened ∧
    calculateEngagementScore 0 (leadOpened 2) < calculateEngagementScore 0 (leadOpened 1) := by
  constructor
  · norm_num [leadOpened, baseLead]
  · norm_num [calculateEngagementScore, emailEngagement, clickEngagement,
      recencyScore, profileCompleteness, leadOpened, baseLead, truthy, msPerDay]

/-- C5 (amended): the email component of the score is monotonically
non-decreasing in `emailsOpened` holding `totalEmails` (and everything
else) fixed; the full `computeScore` is not, because the click component
divides by `emailsOpened`. -/
theorem claim_C5_email_component_monotone (e : Engagement) (a b : ℕ) (h : a ≤ b) :
    emailEngagement { e with emailsOpened := a } ≤
      emailEngagement { e with emailsOpened := b } := by
  unfold emailEngagement
  dsimp only
  by_cases ht : 0 < e.totalEmails
  · rw [if_pos ht, if_pos ht]
    have ht' : (0 : ℚ) < (e.totalEmails : ℚ) := by exact_mod_cast ht
    have hab : (a : ℚ) ≤ (b : ℚ) := by exact_mod_cast h
    exact mul_le_mul_of_nonneg_right ((div_le_div_iff_of_pos_right ht').mpr hab) (by norm_num)
  · rw [if_neg ht, if_neg ht]

/-- Witness for the amended C5 at `emailsOpened` 1 versus 2. -/
theorem claim_C5_email_component_monotone_witness :
    emailEngagement { (leadOpened 0).engagement with emailsOpened := 1 } ≤
      emailEngagement { (leadOpened 0).engagement with emailsOpened := 2 } :=
  claim_C5_email_component_monotone (leadOpened 0).engagement 1 2 (by norm_num)

/-- C6 is refuted: on a state whose last email open is at time 0, calling
`calculateEngagementScore` at time 0 and at time `140` days later returns
different scores (20 versus 0) — the method reads `Date.now()`, so it is
not a function of the state alone. -/
theorem claim_C6_counterexample :
    calculateEngagementScore 0 leadRecency ≠
      calculateEngagementScore (140 * msPerDay) leadRecency := by
  norm_num [calculateEngagementScore, emailEngagement, clickEngagement,
    recencyScore, profileCompleteness, leadRecency, baseLead, truthy, msPerDay]

/-- C6 (amended): the score is a deterministic function of the state and
the call time, and it is independent of the call time whenever
`lastEmailOpened` is unset (only the recency component reads the clock). -/
theorem claim_C6_score_time_dependence (lead : Lead)
    (h : lead.engagement.lastEmailOpened = none) (t1 t2 : ℚ) :
    calculateEngagementScore t1 lead = calculateEngagementScore t2 lead := by
  unfold calculateEngagementScore recencyScore
  rw [h]

/-- Witness for the amended C6 on the all-empty lead at times 0 and 99. -/
theorem claim_C6_score_time_dependence_witness :
    calculateEngagementScore 0 baseLead = calculateEngagementScore 99 baseLead :=
  claim_C6_score_time_dependence baseLead rfl 0 99

/-- C7: `addActivity` appends exactly one activity stamped `now`, sets the
owning lead's `lifecycle.lastActivity` to `now`, bumps `totalEmails` on
`email_sent`, bumps `emailsOpened` and stamps `lastEmailOpened` on
`email_opened`, bumps `linksClicked` on `link_clicked`, and stores the
freshly recomputed engagement score. -/
theorem claim_C7_addActivity (now : ℚ) (type : ActivityType)
    (description : List Char) (metadata : List (List Char × List Char))
    (lead : Lead) :
    (addActivity now type description metadata lead).activities =
      lead.activities ++
        [{ type := type, description := description, metadata := metadata,
           timestamp := now }] ∧
    (addActivity now type description metadata lead).lifecycle.lastActivity =
      some now ∧
    (addActivity now type description metadata lead).engagement.totalEmails =
      lead.engagement.totalEmails + (if type = .email_sent then 1 else 0) ∧
    (addActivity now type description metadata lead).engagement.emailsOpened =
      lead.engagement.emailsOpened + (if type = .email_opened then 1 else 0) ∧
    (addActivity now type description metadata lead).engagement.lastEmailOpened =
      (if type = .email_opened then some now
       else lead.engagement.lastEmailOpened) ∧
    (addActivity now type description metadata lead).engagement.linksClicked =
      lead.engagement.linksClicked + (if type = .link_clicked then 1 else 0) ∧
    (addActivity now type description metadata lead).engagement.engagementScore =
      calculateEngagementScore now (addActivity now type description metadata lead) := by
  cases type <;>
    simp [addActivity, storeEngagementScore, calculateEngagementScore,
      emailEngagement, clickEngagement, recencyScore, profileCompleteness]

/-- C10: `addActivity` leaves every Lead field other than `activities`, the
engagement sub-document and `lifecycle.lastActivity` unchanged — in
particular `status`, `lifecycle.stage`, `tags`, `preferences`, `value` and
`notes`. -/
theorem claim_C10_addActivity_frame (now : ℚ) (type : ActivityType)
    (description : List Char) (metadata : List (List Char × List Char))
    (lead : Lead) :
    (addActivity now type description metadata lead).email = lead.email ∧
    (addActivity now type description metadata lead).firstName = lead.firstName ∧
    (addActivity now type description metadata lead).lastName = lead.lastName ∧
    (addActivity now type description metadata lead).phone = lead.phone ∧
    (addActivity now type description metadata lead).company = lead.company ∧
    (addActivity now type description metadata lead).jobTitle = lead.jobTitle ∧
    (addActivity now type description metadata lead).status = lead.status ∧
    (addActivity now type description metadata lead).source = lead.source ∧
    (addActivity now type description metadata lead).tags = lead.tags ∧
    (addActivity now type description metadata lead).lifecycle.stage =
      lead.lifecycle.stage ∧
    (addActivity now type description metadata lead).lifecycle.firstContact =
      lead.lifecycle.firstContact ∧
    (addActivity now type description metadata lead).lifecycle.lastContact =
      lead.lifecycle.lastContact ∧
    (addActivity now type description metadata lead).preferences = lead.preferences ∧
    (addActivity now type description metadata lead).value = lead.value ∧
    (addActivity now type description metadata lead).notes = lead.notes := by
  cases type <;> simp [addActivity, storeEngagementScore]

/-- C8: on every KPI state reachable from creation through updates, the
stored trend is the endpoint comparison over the window of the last 3
recorded values (or fewer); the window of `[10, 12, 9]` classifies as
`decreasing` (last `9 <` first `10`), and a single-point history is
`stable`. -/
theorem claim_C8_trend_classification :
    (∀ kpi, KPIReachable kpi → kpi.trend = classifyTrend kpi.history) ∧
    (∀ e : KPIEntry, classifyTrend [e] = .stable) ∧
    (∀ (d1 d2 d3 : ℚ) (n1 n2 n3 : List Char),
      classifyTrend
        [{ date := d1, value := 10, note := n1 },
         { date := d2, value := 12, note := n2 },
         { date := d3, value := 9, note := n3 }] = .decreasing) := by
  refine ⟨?_, ?_, ?_⟩
  · intro kpi hr
    induction hr with
    | init => rfl
    | step kpi now v note _ ih =>
      show (updateKPI now v note kpi).trend = _
      simp only [updateKPI, classifyTrend]
      by_cases h2 : 2 ≤
          (kpi.history ++ [({ date := now, value := v, note := note } : KPIEntry)]).length
      · have hne :
            (kpi.history ++
              [({ date := now, value := v, note := note } : KPIEntry)]).drop
              ((kpi.history ++
                [({ date := now, value := v, note := note } : KPIEntry)]).length - 3) ≠
              [] := by
          intro he
          have hlen := congrArg List.length he
          rw [List.length_drop] at hlen
          simp only [List.length_nil] at hlen
          omega
        obtain ⟨x, hx⟩ : ∃ x,
            ((kpi.history ++
              [({ date := now, value := v, note := note } : KPIEntry)]).drop
              ((kpi.history ++
                [({ date := now, value := v, note := note } : KPIEntry)]).length -
                3)).getLast? = some x := by
          cases hg :
              ((kpi.history ++
                [({ date := now, value := v, note := note } : KPIEntry)]).drop
                ((kpi.history ++
                  [({ date := now, value := v, note := note } : KPIEntry)]).length -
                  3)).getLast? with
          | none => exact absurd (List.getLast?_eq_none_iff.mp hg) hne
          | some x => exact ⟨x, rfl⟩
        obtain ⟨y, hy⟩ : ∃ y,
            ((kpi.history ++
              [({ date := now, value := v, note := note } : KPIEntry)]).drop
              ((kpi.history ++
                [({ date := now, value := v, note := note } : KPIEntry)]).length -
                3)).head? = some y := by
          cases hg :
              ((kpi.history ++
                [({ date := now, value := v, note := note } : KPIEntry)]).drop
                ((kpi.history ++
                  [({ date := now, value := v, note := note } : KPIEntry)]).length -
                  3)).head? with
          | none => exact absurd (List.head?_eq_none_iff.mp hg) hne
          | some y => exact ⟨y, rfl⟩
        rw [if_pos h2, if_pos h2, hx, hy]
      · have hlen : kpi.history.length = 0 := by
          rw [List.length_append] at h2
          simp only [List.length_cons, List.length_nil] at h2
          omega
        have hnil : kpi.history = [] := List.length_eq_zero.mp hlen
        rw [if_neg h2, if_neg h2, ih, hnil]
        rfl
  · intro e
    rfl
  · intro d1 d2 d3 n1 n2 n3
    have h10 : ¬((10 : ℚ) < 9) := by norm_num
    have h9 : (9 : ℚ) < 10 := by norm_num
    simp [classifyTrend, List.getLast?, h10, h9]

/-- Witness for C8: a concrete two-update run, a concrete one-point
history, and the concrete three-point history. -/
theorem claim_C8_trend_classification_witness :
    (updateKPI 1 (12 : ℚ) [] (updateKPI 0 (10 : ℚ) [] kpiNew)).trend =
      classifyTrend
        (updateKPI 1 (12 : ℚ) [] (updateKPI 0 (10 : ℚ) [] kpiNew)).history ∧
    classifyTrend [{ date := 0, value := 5, note := [] }] = .stable ∧
    classifyTrend
      [{ date := 0, value := 10, note := [] },
       { date := 1, value := 12, note := [] },
       { date := 2, value := 9, note := [] }] = .decreasing :=
  ⟨claim_C8_trend_classification.1 _
      (KPIReachable.step _ 1 12 [] (KPIReachable.step _ 0 10 [] KPIReachable.init)),
    claim_C8_trend_classification.2.1 _,
    claim_C8_trend_classification.2.2 0 1 2 [] [] []⟩

/-- C9, counterexample: the claimed length bound fails once calls hitting
the catch path are counted. `processMessage` pushes the user message
before the `await`; when the API call throws, the catch block returns
normally and neither the assistant push nor the `splice(1, 2)` trim runs,
so each such call grows the stored history by one entry with no bound:
after 21 of them the history has 22 entries. -/
theorem claim_C9_counterexample :
    ChatReachableAny (catchCalls 21) ∧ ¬ (catchCalls 21).length ≤ 21 :=
  ⟨catchCalls_reachable 21, by decide⟩

/-- C9, amended: across any sequence of `processMessage` calls on one
session — completed or failing after the user push — the stored history
keeps the system prompt as its first entry; the bound of 21 entries holds
for the histories reachable through completed calls only, where each call
appends a user/assistant pair and `splice(1, 2)` trims the oldest pair
once the length passes 20. -/
theorem claim_C9_history_invariant (h : List ChatMsg)
    (hr : ChatReachableAny h) :
    (∃ sys, h.head? = some { role := .system, content := sys }) ∧
      (ChatReachable h → h.length ≤ 21) := by
  refine ⟨?_, fun hok => (chatOk_invariant h hok).2⟩
  induction hr with
  | init sys => exact ⟨sys, rfl⟩
  | ok h m b _ ih =>
    obtain ⟨sys, hhead⟩ := ih
    cases h with
    | nil => simp at hhead
    | cons hd t =>
      have hd_eq : hd = { role := Role.system, content := sys } := by
        simpa using hhead
      refine ⟨sys, ?_⟩
      simp only [processMessageHistory, List.cons_append, List.nil_append]
      by_cases hl : 20 < (hd :: (t ++ [({ role := Role.user, content := m } : ChatMsg)] ++
          [({ role := Role.assistant, content := b } : ChatMsg)])).length
      · rw [if_pos hl]
        simp [hd_eq]
      · rw [if_neg hl]
        simp [hd_eq]
  | err h m _ ih =>
    obtain ⟨sys, hhead⟩ := ih
    cases h with
    | nil => simp at hhead
    | cons hd t =>
      have hd_eq : hd = { role := Role.system, content := sys } := by
        simpa using hhead
      refine ⟨sys, ?_⟩
      simp only [processMessageCatch, List.cons_append]
      simp [hd_eq]

/-- Witness for the amended C9: the invariant after one completed call
followed by one catch-path call on a fresh session. -/
theorem claim_C9_history_invariant_witness :
    (∃ sys, (processMessageCatch
        (processMessageHistory (chatInit []) ['h', 'i'] ['y', 'o'])
        ['x']).head? = some { role := .system, content := sys }) ∧
      (ChatReachable (processMessageCatch
          (processMessageHistory (chatInit []) ['h', 'i'] ['y', 'o']) ['x']) →
        (processMessageCatch
          (processMessageHistory (chatInit []) ['h', 'i'] ['y', 'o'])
          ['x']).length ≤ 21) :=
  claim_C9_history_invariant _
    (ChatReachableAny.err _ ['x']
      (ChatReachableAny.ok _ ['h', 'i'] ['y', 'o'] (ChatReachableAny.init [])))


/-- C2, counterexample: fence stripping is NOT content-preserving. For the
valid JSON object `\x7b"a":"```"\x7d`, the `/```\s*` + `/g` pass deletes the
three backticks inside the string value, so the round trip through fencing
parses to `\x7b"a":""\x7d`, not to the original object. -/
theorem claim_C2_counterexample :
    ¬ parseJSONResponseMarketing
        (fencedWrap (stringify (Json.obj [(['a'], Json.str fenceTicks)]))) =
      RecoveryResult.parsed (Json.obj [(['a'], Json.str fenceTicks)]) := by
  intro h
  have h2 := congrArg resultRepr h
  revert h2
  decide

/-- C2, amended: the fenced round trip does return `Parsed v` for every
JSON object `v` whose serialization contains no triple backtick and no
character in `\u007F`–`\u009F` (the part of the cleanup class that
`JSON.stringify` leaves unescaped). Trim keeps the fenced blob, the
`json`-fence pass deletes exactly the opener and its trailing whitespace,
the tick pass deletes exactly the closer, the brace span is the serialized
object, cleanup is the identity on it, and `JSON.parse` inverts
`JSON.stringify`. -/
theorem claim_C2_fenced_roundtrip (kvs : List (List Char × Json))
    (hf : hasFence (stringify (Json.obj kvs)) = false)
    (hcc : noC1Range (stringify (Json.obj kvs)) = true) :
    parseJSONResponseMarketing (fencedWrap (stringify (Json.obj kvs))) =
      RecoveryResult.parsed (Json.obj kvs) := by
  have hobj := stringify_obj kvs
  have hge : ∀ c ∈ stringify (Json.obj kvs), 32 ≤ c.toNat :=
    (stringify_ge32 (sizeOf (Json.obj kvs))).1 _ (le_refl _)
  have hge' := hge
  have hf' := hf
  have hcc' := hcc
  rw [hobj] at hge' hf' hcc'
  simp only [parseJSONResponseMarketing]
  rw [jsTrim_fencedWrap, hobj, List.cons_append]
  rw [replaceFenceJson_fenced '\x7b' (stringifyMembers kvs ++ ['\x7d'])
    (by decide) hf']
  unfold replaceFenceTicks
  rw [rftF_skip ('\x7b' :: (stringifyMembers kvs ++ ['\x7d'])) hf' _
    (by simp only [List.length_append, List.length_cons, List.length_nil,
          fenceTicks]
        omega)]
  have hbs := braceSpan_wrapped (stringifyMembers kvs)
  rw [List.cons_append] at hbs
  rw [hbs]
  show (match jsonParse (cleanJsonStr
        ('\x7b' :: stringifyMembers kvs ++ ['\x7d'])) with
    | some v => RecoveryResult.parsed v
    | none =>
        RecoveryResult.fallback
          (marketingFallback (fencedWrap ('\x7b' :: stringifyMembers kvs ++ ['\x7d'])))
          (fencedWrap ('\x7b' :: stringifyMembers kvs ++ ['\x7d']))) =
    RecoveryResult.parsed (Json.obj kvs)
  rw [cleanJsonStr_eq_self hge' hcc', ← hobj, jsonParse_stringify]

/-- C2 witness: the amended round trip at the concrete object
`\x7b"a":1\x7d`, whose serialization is fence-free and C1-free. -/
theorem claim_C2_fenced_roundtrip_witness :
    hasFence (stringify (Json.obj [(['a'], Json.num 1)])) = false ∧
    noC1Range (stringify (Json.obj [(['a'], Json.num 1)])) = true ∧
    parseJSONResponseMarketing
        (fencedWrap (stringify (Json.obj [(['a'], Json.num 1)]))) =
      RecoveryResult.parsed (Json.obj [(['a'], Json.num 1)]) :=
  ⟨by decide, by decide,
    claim_C2_fenced_roundtrip [(['a'], Json.num 1)] (by decide) (by decide)⟩

end AIBiz
